import Mathlib

/-!
# Verification of `diffusion_distillation/checkpoints.py`

Shallow embedding of the checkpoint lifecycle manager: natural-order
filename comparison, checkpoint saving with retention cleanup, restore,
and the polling watcher / iterator.

Modelling conventions:
* A directory is an association list from file names to opaque blobs.
  The blob stands for the serialized bytes (`pickle.dump` output); since the
  serializer is an external collaborator, deserialization is modelled as the
  identity on the blob.
* Python floats parsed by `float(...)` are modelled as exact rationals.  For
  the short decimal literals appearing in checkpoint names the rational order
  coincides with IEEE double order (decimal-to-double rounding is monotone and
  the compared values are distinct), so this is order-faithful.
* `time.time()` values are modelled as rationals supplied by an observation
  trace; `time.sleep` only affects wall time, never the data flow.
-/

namespace Checkpoints

/-! ## Numeric-substring grammar (SIGNED_FLOAT_RE / UNSIGNED_FLOAT_RE)

The two Python regexes
`([-+]?(?:\d+(?:\.\d*)?|\.\d+)(?:[eE][-+]?\d+)?)` (sign captured) and
`[-+]?((?:\d+(?:\.\d*)?|\.\d+)(?:[eE][-+]?\d+)?)` (sign not captured)
match exactly the same substrings; they differ only in what the capture
group retains.  `matchFloatAt` computes the (greedy, leftmost) match of this
grammar at the head of a character list, returning the whole match and the
remaining characters. -/

/-- Match the body `\d+(\.\d*)? | \.\d+` at the head of `cs`.  The first
alternative applies exactly when the head is a digit, the second exactly when
the head is `.` followed by a digit. -/
def numBody : List Char → Option (List Char × List Char)
  | [] => none
  | c :: tl =>
    if c.isDigit then
      -- \d+ then optionally . followed by \d* (greedy)
      match tl.dropWhile Char.isDigit with
      | '.' :: r2 =>
        some ((c :: tl.takeWhile Char.isDigit) ++ '.' :: r2.takeWhile Char.isDigit,
          r2.dropWhile Char.isDigit)
      | rest => some (c :: tl.takeWhile Char.isDigit, rest)
    else if c = '.' then
      match tl.takeWhile Char.isDigit with
      | [] => none
      | f :: fs => some ('.' :: f :: fs, tl.dropWhile Char.isDigit)
    else none

/-- Match the optional exponent `(?:[eE][-+]?\d+)?` at the head of `cs`.
Returns the consumed characters (possibly none: the group is optional and
a dangling `e` without digits is not consumed). -/
def expPart : List Char → List Char × List Char
  | [] => ([], [])
  | c :: r =>
    if c = 'e' ∨ c = 'E' then
      match r with
      | [] => ([], [c])
      | s :: rr =>
        if s = '-' ∨ s = '+' then
          match rr.takeWhile Char.isDigit with
          | [] => ([], c :: s :: rr)
          | d :: ds => (c :: s :: d :: ds, rr.dropWhile Char.isDigit)
        else
          match r.takeWhile Char.isDigit with
          | [] => ([], c :: r)
          | d :: ds => (c :: d :: ds, r.dropWhile Char.isDigit)
    else ([], c :: r)

/-- The part of the match after the optional sign: `body exponent?`. -/
def matchAfterSign (sgn : List Char) (cs1 : List Char) : Option (List Char × List Char) :=
  match numBody cs1 with
  | none => none
  | some (body, r1) => some (sgn ++ body ++ (expPart r1).1, (expPart r1).2)

/-- Match `[-+]? body exponent?` at the head of `cs`; returns the whole match
(sign included) and the rest, or `none` when the regex does not match here.
If the sign is present but no number follows, the regex engine backtracks to
the signless alternative, which then also fails at this position. -/
def matchFloatAt (cs : List Char) : Option (List Char × List Char) :=
  match cs with
  | c :: r => if c = '-' ∨ c = '+' then matchAfterSign [c] r else matchAfterSign [] cs
  | [] => none

theorem length_dropWhile_le (p : Char → Bool) (l : List Char) :
    (l.dropWhile p).length ≤ l.length := by
  induction l with
  | nil => simp [List.dropWhile]
  | cons c r ih =>
    simp only [List.dropWhile]
    cases p c <;> simp <;> omega

theorem numBody_length {cs b r : List Char} (h : numBody cs = some (b, r)) :
    r.length < cs.length := by
  match cs with
  | [] => simp [numBody] at h
  | c :: tl =>
    simp only [numBody] at h
    have h1 := length_dropWhile_le Char.isDigit tl
    by_cases hc : c.isDigit
    · rw [if_pos hc] at h
      split at h
      · rename_i r2 heq
        simp only [Option.some.injEq, Prod.mk.injEq] at h
        obtain ⟨-, hr⟩ := h
        subst hr
        have h2 := length_dropWhile_le Char.isDigit r2
        have h3 : (tl.dropWhile Char.isDigit).length = r2.length + 1 := by
          rw [heq]; simp
        simp only [List.length_cons]
        omega
      · simp only [Option.some.injEq, Prod.mk.injEq] at h
        obtain ⟨-, hr⟩ := h
        subst hr
        simp only [List.length_cons]
        omega
    · rw [if_neg hc] at h
      by_cases hd : c = '.'
      · rw [if_pos hd] at h
        split at h
        · exact absurd h (by simp)
        · simp only [Option.some.injEq, Prod.mk.injEq] at h
          obtain ⟨-, hr⟩ := h
          subst hr
          simp only [List.length_cons]
          omega
      · rw [if_neg hd] at h
        exact absurd h (by simp)

theorem expPart_length (cs : List Char) : (expPart cs).2.length ≤ cs.length := by
  match cs with
  | [] => simp [expPart]
  | c :: r =>
    simp only [expPart]
    by_cases hc : c = 'e' ∨ c = 'E'
    · rw [if_pos hc]
      match r with
      | [] => simp
      | s :: rr =>
        simp only
        by_cases hs : s = '-' ∨ s = '+'
        · rw [if_pos hs]
          split
          · simp
          · have := length_dropWhile_le Char.isDigit rr
            simp only [List.length_cons]
            omega
        · rw [if_neg hs]
          split
          · simp
          · have := length_dropWhile_le Char.isDigit (s :: rr)
            simp only [List.length_cons] at this ⊢
            omega
    · rw [if_neg hc]

theorem matchAfterSign_length {sgn cs1 w r : List Char}
    (h : matchAfterSign sgn cs1 = some (w, r)) : r.length < cs1.length := by
  unfold matchAfterSign at h
  split at h
  · exact absurd h (by simp)
  · rename_i body r1 heq
    simp only [Option.some.injEq, Prod.mk.injEq] at h
    obtain ⟨-, hr⟩ := h
    subst hr
    have h1 := numBody_length heq
    have h2 := expPart_length r1
    omega

theorem matchFloatAt_length {cs w r : List Char} (h : matchFloatAt cs = some (w, r)) :
    r.length < cs.length := by
  unfold matchFloatAt at h
  split at h
  · rename_i c tl
    split at h
    · have := matchAfterSign_length h
      simp only [List.length_cons]
      omega
    · exact matchAfterSign_length h
  · exact absurd h (by simp)

/-- Strip a leading sign character (used for the unsigned capture group,
which excludes the sign from the captured numeric substring). -/
def dropSign (w : List Char) : List Char :=
  match w with
  | c :: t => if c = '-' ∨ c = '+' then t else w
  | [] => []

/-- Scanner loop for `float_re.split`.  The fuel argument makes the
recursion structural (so that concrete runs reduce inside the kernel); each
iteration consumes at least one character (`matchFloatAt_length`), so fuel
`cs.length + 1` never runs out — see `floatSplitGo_fuel`. -/
def floatSplitGo (signed : Bool) : Nat → List Char → List Char → List String
  | fuel + 1, cs, acc =>
    match matchFloatAt cs with
    | some (w, r2) =>
      ⟨acc.reverse⟩ :: ⟨if signed then w else dropSign w⟩ :: floatSplitGo signed fuel r2 []
    | none =>
      match cs with
      | [] => [⟨acc.reverse⟩]
      | c :: r => floatSplitGo signed fuel r (c :: acc)
  | 0, cs, acc => [⟨acc.reverse ++ cs⟩]

/-- Model of `float_re.split(s)`: Python `re.split` with one capturing group
removes each match from the string and inserts the captured group between the
surrounding text pieces, producing `text, capture, text, capture, ..., text`.
With the unsigned regex a leading sign is part of the match but of no group,
so it is dropped from the output entirely. -/
def floatSplit (signed : Bool) (cs : List Char) : List String :=
  floatSplitGo signed (cs.length + 1) cs []

/-- Any two sufficient fuels give the same split, so the fuel in
`floatSplit` is just a structural-recursion device, not part of the
semantics. -/
theorem floatSplitGo_fuel (signed : Bool) :
    ∀ (f : Nat), ∀ (g : Nat) (cs acc : List Char), cs.length < f → cs.length < g →
      floatSplitGo signed f cs acc = floatSplitGo signed g cs acc := by
  intro f
  induction f with
  | zero => intro g cs acc hf _; omega
  | succ f ih =>
    intro g cs acc hf hg
    match g, hg with
    | g + 1, hg =>
      cases hm : matchFloatAt cs with
      | some wr =>
        rcases wr with ⟨w, r2⟩
        have hlen := matchFloatAt_length hm
        simp only [floatSplitGo, hm]
        rw [ih g r2 [] (by omega) (by omega)]
      | none =>
        cases cs with
        | nil => simp [floatSplitGo, hm]
        | cons c r =>
          simp only [List.length_cons] at hf hg
          simp only [floatSplitGo, hm]
          rw [ih g r (c :: acc) (by omega) (by omega)]

/-- Digits-to-value accumulator, as in Python `int`/`float` parsing. -/
def digitsToNat (cs : List Char) : Nat :=
  cs.foldl (fun n c => 10 * n + (c.toNat - 48)) 0

/-- The exact value of a parsed numeric literal, as `m * 10 ^ e`.  This is
the exact rational the literal denotes (where IEEE `float` would round;
comparisons of distinct short literals agree with double order because
decimal-to-double rounding is monotone).  Exactness keeps every operation
kernel-computable. -/
structure DecNum where
  m : Int
  e : Int
deriving DecidableEq

/-- Compare two decimal values by bringing both to the smaller exponent
(exact cross-multiplication by a power of ten). -/
def cmpDecNum (a b : DecNum) : Ordering :=
  let s : Int × Int :=
    if b.e ≤ a.e then (a.m * 10 ^ (a.e - b.e).toNat, b.m)
    else (a.m, b.m * 10 ^ (b.e - a.e).toNat)
  if s.1 < s.2 then .lt else if s.1 = s.2 then .eq else .gt

/-- Exact value of a matched numeric substring (model of Python
`float(...)` on strings produced by the float regex): sign, integer part,
fraction part, exponent part. -/
def floatVal (w : List Char) : DecNum :=
  let sgn : Bool × List Char :=
    match w with
    | '-' :: r => (true, r)
    | '+' :: r => (false, r)
    | _ => (false, w)
  let cs := sgn.2
  let ip := cs.takeWhile Char.isDigit
  let cs1 := cs.dropWhile Char.isDigit
  let fpcs : List Char × List Char :=
    match cs1 with
    | '.' :: r => (r.takeWhile Char.isDigit, r.dropWhile Char.isDigit)
    | _ => ([], cs1)
  let ex : Int :=
    match fpcs.2 with
    | c :: r =>
      if c = 'e' ∨ c = 'E' then
        match r with
        | '-' :: rr => -(digitsToNat (rr.takeWhile Char.isDigit) : Int)
        | '+' :: rr => (digitsToNat (rr.takeWhile Char.isDigit) : Int)
        | rr => (digitsToNat (rr.takeWhile Char.isDigit) : Int)
      else 0
    | [] => 0
  let mant : Nat := digitsToNat ip * 10 ^ fpcs.1.length + digitsToNat fpcs.1
  { m := if sgn.1 then -(mant : Int) else (mant : Int)
    e := ex - (fpcs.1.length : Int) }

/-- A sort-key token: either a parsed numeric value or a literal text piece. -/
inductive NKey where
  | num (q : DecNum)
  | str (s : String)
deriving DecidableEq

/-- Model of `maybe_num`: a split piece that matches the float regex at its
start is replaced by its numeric value.  (If the regex matched only a proper
first part of the piece, Python `float(piece)` would raise `ValueError`; this
is unreachable for pieces produced by `floatSplit`, and the model keeps the
piece as text there.)  Both regexes match the same language, so the check
does not depend on `signed`. -/
def maybe_num (piece : String) : NKey :=
  match matchFloatAt piece.data with
  | some (w, rest) => if rest.isEmpty then .num (floatVal w) else .str piece
  | none => .str piece

/-- Model of `split_keys`: the sort key of one filename. -/
def split_keys (signed : Bool) (s : String) : List NKey :=
  (floatSplit signed s.data).map maybe_num

/-- Strict lexicographic comparison of character lists by code point
(the order Python uses for `str < str`). -/
def charsLt : List Char → List Char → Bool
  | [], [] => false
  | [], _ :: _ => true
  | _ :: _, [] => false
  | a :: as, b :: bs => if a < b then true else if a = b then charsLt as bs else false

/-- Non-strict lexicographic comparison of character lists. -/
def charsLe : List Char → List Char → Bool
  | [], _ => true
  | _ :: _, [] => false
  | a :: as, b :: bs => if a < b then true else if a = b then charsLe as bs else false

/-- `a <= b` on strings as Python compares them (code-point lexicographic);
this agrees with Lean's linear order on `String` but is written as a
structurally recursive Boolean function so that concrete sorts evaluate. -/
def lexLe (a b : String) : Prop :=
  charsLe a.data b.data = true

instance : DecidableRel lexLe :=
  fun a b => inferInstanceAs (Decidable (charsLe a.data b.data = true))

/-- Comparison of two key tokens.  Python compares numbers with numbers and
strings with strings; comparing a number against a string raises `TypeError`.
Split keys strictly alternate text and numeric tokens, so the mixed case is
unreachable; the model gives it an arbitrary fixed answer. -/
def cmpNKey : NKey → NKey → Ordering
  | .num a, .num b => cmpDecNum a b
  | .str a, .str b => if charsLt a.data b.data then .lt else if a = b then .eq else .gt
  | .num _, .str _ => .lt
  | .str _, .num _ => .gt

/-- Python list comparison: first unequal position decides; a strict prefix
is smaller. -/
def cmpNKeyList : List NKey → List NKey → Ordering
  | [], [] => .eq
  | [], _ :: _ => .lt
  | _ :: _, [] => .gt
  | a :: as, b :: bs =>
    match cmpNKey a b with
    | .eq => cmpNKeyList as bs
    | o => o

/-- The (non-strict) key order used by `sorted(file_list, key=split_keys)`. -/
def keyLeB (signed : Bool) (a b : String) : Bool :=
  match cmpNKeyList (split_keys signed a) (split_keys signed b) with
  | .gt => false
  | _ => true

/-- Model of `natural_sort`: stable sort of the file list by `split_keys`
(Python `sorted` is stable; insertion sort as defined in Mathlib is stable). -/
def natural_sort (file_list : List String) (signed : Bool := true) : List String :=
  List.insertionSort (fun a b => keyLeB signed a b = true) file_list

/-! ## Filesystem model

A single checkpoint directory is an association list from file names to
opaque blobs.  A blob stands for the byte string `pickle.dump` produced for
the saved object; since the serializer is an external collaborator, the blob
also stands for the value `pickle.load` recovers from it. -/

/-- Opaque serialized payload. -/
abbrev Blob := Nat

/-- Directory contents: file names with their blobs, no duplicate names. -/
abbrev Dir := List (String × Blob)

/-- `os.listdir`: the file names (in the directory's listing order). -/
def listdir (d : Dir) : List String :=
  d.map Prod.fst

/-- Contents of a named file, if present. -/
def lookupFile (d : Dir) (n : String) : Option Blob :=
  (d.find? (fun e => e.1 == n)).map Prod.snd

/-- `os.path.exists` within the directory. -/
def fileExists (d : Dir) (n : String) : Bool :=
  (lookupFile d n).isSome

/-- `open(n, 'wb')` + write: truncates an existing file in place or creates
a new one. -/
def writeFile : Dir → String → Blob → Dir
  | [], n, b => [(n, b)]
  | e :: d, n, b => if e.1 = n then (n, b) :: d else e :: writeFile d n b

/-- `os.remove`. -/
def removeFile (d : Dir) (n : String) : Dir :=
  d.filter (fun e => e.1 != n)

/-- Remove a batch of files (the retention-cleanup loop). -/
def removeFiles (d : Dir) (names : List String) : Dir :=
  names.foldl removeFile d

/-- `shutil.move src dst` (same directory): the callers below only invoke it
with `src` present and `dst` absent; a missing `src` (which would raise in
Python) is modelled as a no-op. -/
def renameFile (d : Dir) (src dst : String) : Dir :=
  match lookupFile d src with
  | some b => writeFile (removeFile d src) dst b
  | none => d

/-- Model of Python `s.startswith(p)` via character lists. -/
def charsHasPfx : List Char → List Char → Bool
  | [], _ => true
  | _ :: _, [] => false
  | p :: ps, c :: cs => p == c && charsHasPfx ps cs

/-- `n.startswith(pfx)` for file names. -/
def strHasPfx (n pfx : String) : Bool :=
  charsHasPfx pfx.data n.data

/-- Model of `os.path.join` for a directory path with no trailing slash. -/
def joinPath (dir n : String) : String :=
  dir ++ "/" ++ n

/-- Plain lexicographic sort (Python `sorted` on strings, by code points). -/
def sortLex (l : List String) : List String :=
  List.insertionSort lexLe l

/-- Errors surfaced by the checkpoint operations.  `alreadyExists` models
`FileExistsError`; `notFound` models both `FileNotFoundError` from `open`
and the `ValueError('Matching checkpoint not found')` raised by
`restore_checkpoint`. -/
inductive CkptErr where
  | alreadyExists
  | notFound
deriving DecidableEq

/-! ## Checkpoint Store -/

/-- `_checkpoint_path(ckpt_dir, step, prefix)`. -/
def _checkpoint_path (ckpt_dir : String) (step : String) (pfx : String) : String :=
  joinPath ckpt_dir (pfx ++ step)

/-- The sorted retention-candidate list computed by `save_checkpoint`:
`sorted([p for p in os.listdir(ckpt_dir) if p.startswith(prefix)])`.
Note this is a *lexicographic* sort of the names, not `natural_sort`. -/
def retentionCandidates (d : Dir) (pfx : String) : List String :=
  sortLex ((listdir d).filter (fun p => strHasPfx p pfx))

/-- The names `save_checkpoint` removes in its cleanup phase:
`checkpoint_files[:-keep]` when `len(checkpoint_files) > keep`.
The Python slice `l[:-0]` is empty, so `keep = 0` removes nothing. -/
def oldCkpts (d : Dir) (pfx : String) (keep : Nat) : List String :=
  let checkpoint_files := retentionCandidates d pfx
  if checkpoint_files.length > keep then
    if keep = 0 then [] else checkpoint_files.take (checkpoint_files.length - keep)
  else []

/-- Rename-then-cleanup tail of `save_checkpoint` (everything after the
exists/overwrite check).  Returns the final directory and the result;
the Python function returns the full checkpoint path, modelled here by the
checkpoint's file name. -/
def saveFinish (d : Dir) (tmpName ckptName pfx : String) (keep : Nat) :
    Dir × Except CkptErr String :=
  let d3 := renameFile d tmpName ckptName
  (removeFiles d3 (oldCkpts d3 pfx keep), .ok ckptName)

/-- Model of `save_checkpoint(ckpt_dir, target, step, prefix, keep, overwrite)`.
Directory creation (`os.makedirs`) has no effect on the contents model.
The serialized `target` blob is first written to `<prefix>tmp`, then the
exists/overwrite check runs, then the rename and the retention cleanup. -/
def save_checkpoint (d : Dir) (target : Blob) (step : Int)
    (pfx : String := "checkpoint_") (keep : Nat := 1) (overwrite : Bool := false) :
    Dir × Except CkptErr String :=
  let ckpt_tmp_name := pfx ++ "tmp"
  let ckpt_name := pfx ++ toString step
  let d1 := writeFile d ckpt_tmp_name target
  if fileExists d1 ckpt_name then
    if overwrite then
      saveFinish (removeFile d1 ckpt_name) ckpt_tmp_name ckpt_name pfx keep
    else (d1, .error .alreadyExists)
  else saveFinish d1 ckpt_tmp_name ckpt_name pfx keep

/-- Model of `latest_checkpoint_path(ckpt_dir, prefix)`: glob the matching
full paths, `natural_sort` them (signed), drop the reserved temp path, and
return the last one.  (`glob` would additionally hide dot-files when `prefix`
is empty; checkpoint prefixes are non-empty literals, so the `startswith`
model is faithful.) -/
def latest_checkpoint_path (ckpt_dir : String) (d : Dir) (pfx : String) :
    Option String :=
  let glob_files := ((listdir d).filter (fun n => strHasPfx n pfx)).map (joinPath ckpt_dir)
  let checkpoint_files := natural_sort glob_files
  let ckpt_tmp_path := _checkpoint_path ckpt_dir "tmp" pfx
  (checkpoint_files.filter (fun f => f ≠ ckpt_tmp_path)).getLast?

/-- Look up a file by its full path (`open(path, 'rb')` inside the modelled
directory); `none` corresponds to `FileNotFoundError`. -/
def lookupPath (ckpt_dir : String) (d : Dir) (p : String) : Option Blob :=
  (d.find? (fun e => joinPath ckpt_dir e.1 == p)).map Prod.snd

/-! ## Checkpoint Loader -/

/-- Model of `restore_from_path(ckpt_path, target)`: returns the
deserialization of the file contents (`pickle.load`); the `target` argument
is not used by the code. -/
def restore_from_path (ckpt_dir : String) (d : Dir) (ckpt_path : String)
    (target : Blob) : Except CkptErr Blob :=
  match lookupPath ckpt_dir d ckpt_path with
  | some b => .ok b
  | none => .error .notFound

/-- The `else` branch of `restore_checkpoint` (no truthy step): resolve the
latest path; if none exists return `target` unchanged. -/
def restoreLatest (ckpt_dir : String) (d : Dir) (target : Blob) (pfx : String) :
    Except CkptErr Blob :=
  match latest_checkpoint_path ckpt_dir d pfx with
  | none => .ok target
  | some p => restore_from_path ckpt_dir d p target

/-- Model of `restore_checkpoint(ckpt_dir, target, step, prefix)`.
The code branches on `if step:` — Python truthiness — so `step = None` *and*
`step = 0` both take the latest-checkpoint branch; only a nonzero step takes
the strict branch, which raises when the exact path is absent. -/
def restore_checkpoint (ckpt_dir : String) (d : Dir) (target : Blob)
    (step : Option Int) (pfx : String := "checkpoint_") : Except CkptErr Blob :=
  match step with
  | some s =>
    if s = 0 then restoreLatest ckpt_dir d target pfx
    else
      let ckpt_path := _checkpoint_path ckpt_dir (toString s) pfx
      if (lookupPath ckpt_dir d ckpt_path).isSome then
        restore_from_path ckpt_dir d ckpt_path target
      else .error .notFound
  | none => restoreLatest ckpt_dir d target pfx

/-! ## Effect-trace view of `save_checkpoint`

To reason about interruption, the filesystem mutations of a save run are
listed as primitive operations in program order; executing a prefix of the
list gives the directory state at the corresponding interruption point. -/

/-- A primitive filesystem mutation. -/
inductive FsOp where
  | write (name : String) (b : Blob)
  | remove (name : String)
  | rename (src dst : String)
deriving DecidableEq

/-- Execute one mutation. -/
def applyOp (d : Dir) : FsOp → Dir
  | .write n b => writeFile d n b
  | .remove n => removeFile d n
  | .rename src dst => renameFile d src dst

/-- Execute a list of mutations in order. -/
def applyOps (d : Dir) (ops : List FsOp) : Dir :=
  ops.foldl applyOp d

/-- Is the operation the atomic rename? -/
def isRenameOp : FsOp → Bool
  | .rename _ _ => true
  | _ => false

/-- The mutations a `save_checkpoint` run performs, in program order:
the temp write; on the overwrite path the removal of the existing target;
the rename (absent when the run raises `FileExistsError`); and the retention
removals. -/
def saveOps (d : Dir) (target : Blob) (step : Int) (pfx : String)
    (keep : Nat) (overwrite : Bool) : List FsOp :=
  let ckpt_tmp_name := pfx ++ "tmp"
  let ckpt_name := pfx ++ toString step
  let d1 := writeFile d ckpt_tmp_name target
  if fileExists d1 ckpt_name then
    if overwrite then
      .write ckpt_tmp_name target :: .remove ckpt_name ::
        .rename ckpt_tmp_name ckpt_name ::
        (oldCkpts (renameFile (removeFile d1 ckpt_name) ckpt_tmp_name ckpt_name) pfx keep).map
          .remove
    else [.write ckpt_tmp_name target]
  else
    .write ckpt_tmp_name target :: .rename ckpt_tmp_name ckpt_name ::
      (oldCkpts (renameFile d1 ckpt_tmp_name ckpt_name) pfx keep).map .remove

/-! ## Checkpoint Watcher and Stream

`wait_for_new_checkpoint` is a polling loop over wall-clock time.  Its
environment is modelled as a trace of observations: at each loop iteration
the directory contents seen by `latest_checkpoint_path` and the value of
`time.time()` at the deadline check.  The loop body is a function of this
trace; `time.sleep` affects only which observations occur, not the logic.
An exhausted (finite) trace models a run still inside the loop and yields
`none`; a finished run yields `some none` for the timeout return and
`some (some path)` for a found checkpoint. -/

/-- One loop iteration's environment. -/
structure Poll where
  dir : Dir
  now : ℚ
deriving Inhabited

/-- The `while True` loop of `wait_for_new_checkpoint`, with
`stopTime = time.time() + timeout` precomputed (or `None`). -/
def waitLoop (ckpt_dir pfx : String) (last : Option String)
    (seconds_to_sleep : ℚ) (stopTime : Option ℚ) :
    List Poll → Option (Option String)
  | [] => none
  | p :: rest =>
    let ckpt_path := latest_checkpoint_path ckpt_dir p.dir pfx
    if ckpt_path = none ∨ ckpt_path = last then
      match stopTime with
      | some st =>
        if p.now + seconds_to_sleep > st then some none
        else waitLoop ckpt_dir pfx last seconds_to_sleep stopTime rest
      | none => waitLoop ckpt_dir pfx last seconds_to_sleep stopTime rest
    else some ckpt_path

/-- Model of `wait_for_new_checkpoint(ckpt_dir, last_ckpt_path,
seconds_to_sleep, timeout, prefix)`; `t0` is the `time.time()` value at
entry, so the deadline is `t0 + timeout` when a timeout is configured. -/
def wait_for_new_checkpoint (ckpt_dir : String) (last_ckpt_path : Option String)
    (seconds_to_sleep : ℚ) (timeout : Option ℚ) (pfx : String)
    (t0 : ℚ) (polls : List Poll) : Option (Option String) :=
  waitLoop ckpt_dir pfx last_ckpt_path seconds_to_sleep (timeout.map (fun t => t0 + t)) polls

/-- Model of the `checkpoints_iterator` generator in its path-yielding mode
(`target is None`; with a target each yielded path is additionally passed
through `restore_from_path`).  Each generator round is driven by one
`(t0, polls)` environment for its `wait_for_new_checkpoint` call; the
`min_interval_secs` throttle only sleeps between rounds and does not change
the yielded sequence.  A timed-out wait (`some none`) ends the sequence
normally (`return`), producing no further yields. -/
def checkpoints_iterator (ckpt_dir pfx : String) (timeout : Option ℚ)
    (seconds_to_sleep : ℚ) : List (ℚ × List Poll) → Option String → List String
  | [], _ => []
  | (t0, polls) :: rest, ckpt_path =>
    match wait_for_new_checkpoint ckpt_dir ckpt_path seconds_to_sleep timeout pfx t0 polls with
    | none => []
    | some none => []
    | some (some p) => p :: checkpoints_iterator ckpt_dir pfx timeout seconds_to_sleep rest (some p)

/-! ## Iterated saves (for the retention claims) -/

/-- Run `save_checkpoint` once per step, threading the directory; the Bool
records whether every save returned successfully.  The blob content is
irrelevant to retention, so each save writes blob `0`. -/
def saveAllFrom (d : Dir) : List Int → String → Nat → Dir × Bool
  | [], _, _ => (d, true)
  | s :: rest, pfx, keep =>
    match save_checkpoint d 0 s pfx keep false with
    | (d', .ok _) => saveAllFrom d' rest pfx keep
    | (d', .error _) => (d', false)

/-- `N` sequential saves into an initially empty directory. -/
def saveAll (steps : List Int) (pfx : String) (keep : Nat) : Dir × Bool :=
  saveAllFrom [] steps pfx keep

/-- The last `k` elements of a list (the retained suffix of a sorted list). -/
def lastK (k : Nat) (l : List α) : List α :=
  l.drop (l.length - k)

/-! ## Basic directory lemmas -/

theorem lookupFile_cons (e : String × Blob) (d : Dir) (n : String) :
    lookupFile (e :: d) n = if e.1 = n then some e.2 else lookupFile d n := by
  by_cases h : e.1 = n <;> simp [lookupFile, List.find?_cons, h]

theorem fileExists_iff_mem {d : Dir} {n : String} :
    fileExists d n = true ↔ n ∈ listdir d := by
  induction d with
  | nil => simp [fileExists, lookupFile, listdir]
  | cons e d ih =>
    by_cases h : e.1 = n
    · simp [fileExists, lookupFile_cons, h, listdir]
    · simp only [fileExists, lookupFile_cons, h, if_neg, not_false_iff, listdir,
        List.map_cons, List.mem_cons] at ih ⊢
      rw [ih]
      constructor
      · exact Or.inr
      · rintro (hx | hx)
        · exact absurd hx.symm h
        · exact hx

theorem fileExists_eq_false_iff {d : Dir} {n : String} :
    fileExists d n = false ↔ n ∉ listdir d := by
  rw [← fileExists_iff_mem, Bool.not_eq_true, Bool.eq_false_iff, ne_eq, Bool.not_eq_true]

theorem listdir_writeFile_of_not_mem {d : Dir} {n : String} (b : Blob)
    (h : n ∉ listdir d) : listdir (writeFile d n b) = listdir d ++ [n] := by
  induction d with
  | nil => rfl
  | cons e d ih =>
    simp only [listdir, List.map_cons, List.mem_cons] at h ih ⊢
    push_neg at h
    rw [writeFile, if_neg (fun he => h.1 he.symm)]
    simp only [listdir, List.map_cons, List.cons_append, List.cons.injEq, true_and]
    exact ih h.2

theorem listdir_writeFile_of_mem {d : Dir} {n : String} (b : Blob)
    (h : n ∈ listdir d) : listdir (writeFile d n b) = listdir d := by
  induction d with
  | nil => simp [listdir] at h
  | cons e d ih =>
    by_cases he : e.1 = n
    · rw [writeFile, if_pos he]
      simp [listdir, he]
    · simp only [listdir, List.map_cons, List.mem_cons] at h ih ⊢
      rw [writeFile, if_neg he]
      simp only [listdir, List.map_cons, List.cons.injEq, true_and]
      exact ih (h.resolve_left (fun hx => he hx.symm))

theorem lookupFile_writeFile_self (d : Dir) (n : String) (b : Blob) :
    lookupFile (writeFile d n b) n = some b := by
  induction d with
  | nil => simp [writeFile, lookupFile_cons]
  | cons e d ih =>
    by_cases he : e.1 = n
    · rw [writeFile, if_pos he, lookupFile_cons]
      simp
    · rw [writeFile, if_neg he, lookupFile_cons, if_neg he]
      exact ih

theorem lookupFile_writeFile_ne {m n : String} (d : Dir) (b : Blob) (h : m ≠ n) :
    lookupFile (writeFile d n b) m = lookupFile d m := by
  induction d with
  | nil =>
    show lookupFile [(n, b)] m = lookupFile [] m
    rw [lookupFile_cons, if_neg (fun x => h x.symm)]
  | cons e d ih =>
    by_cases he : e.1 = n
    · rw [writeFile, if_pos he, lookupFile_cons, lookupFile_cons, he,
        if_neg (fun x => h x.symm)]
      rw [if_neg (fun x => h x.symm)]
    · rw [writeFile, if_neg he, lookupFile_cons, lookupFile_cons]
      by_cases hem : e.1 = m
      · rw [if_pos hem, if_pos hem]
      · rw [if_neg hem, if_neg hem]
        exact ih

theorem lookupFile_removeFile_self (d : Dir) (n : String) :
    lookupFile (removeFile d n) n = none := by
  induction d with
  | nil => rfl
  | cons e d ih =>
    by_cases he : e.1 = n
    · simpa [removeFile, List.filter_cons, he] using ih
    · simpa [removeFile, List.filter_cons, he, lookupFile_cons] using ih

theorem lookupFile_removeFile_ne {m n : String} (d : Dir) (h : m ≠ n) :
    lookupFile (removeFile d n) m = lookupFile d m := by
  induction d with
  | nil => rfl
  | cons e d ih =>
    by_cases he : e.1 = n
    · rw [removeFile, List.filter_cons, if_neg (by simp [he])]
      rw [removeFile] at ih
      rw [ih, lookupFile_cons, if_neg (fun x => h (x.symm.trans he))]
    · rw [removeFile, List.filter_cons, if_pos (by simp [he])]
      rw [lookupFile_cons, lookupFile_cons]
      by_cases hem : e.1 = m
      · rw [if_pos hem, if_pos hem]
      · rw [if_neg hem, if_neg hem]
        rw [removeFile] at ih
        exact ih

theorem listdir_removeFile (d : Dir) (n : String) :
    listdir (removeFile d n) = (listdir d).filter (fun x => x != n) := by
  induction d with
  | nil => rfl
  | cons e d ih =>
    by_cases he : e.1 = n <;>
      simp [removeFile, listdir, List.filter_cons, he] at ih ⊢ <;> exact ih

theorem fileExists_writeFile (d : Dir) (n : String) (b : Blob) (m : String) :
    fileExists (writeFile d n b) m = (m == n || fileExists d m) := by
  by_cases h : m = n
  · subst h
    simp [fileExists, lookupFile_writeFile_self]
  · rw [fileExists, lookupFile_writeFile_ne d b h]
    simp [fileExists, h]

theorem lookupFile_removeFiles (d : Dir) (L : List String) (n : String) :
    lookupFile (removeFiles d L) n = if n ∈ L then none else lookupFile d n := by
  induction L generalizing d with
  | nil => simp [removeFiles]
  | cons a L ih =>
    show lookupFile (removeFiles (removeFile d a) L) n = _
    rw [ih]
    by_cases hn : n ∈ L
    · simp [hn]
    · by_cases hna : n = a
      · subst hna
        simp [hn, lookupFile_removeFile_self]
      · simp [hn, hna, lookupFile_removeFile_ne d hna]

theorem listdir_removeFiles (d : Dir) (L : List String) :
    listdir (removeFiles d L) = (listdir d).filter (fun x => decide (x ∉ L)) := by
  induction L generalizing d with
  | nil => simp [removeFiles]
  | cons a L ih =>
    show listdir (removeFiles (removeFile d a) L) = _
    rw [ih, listdir_removeFile, List.filter_filter]
    apply List.filter_congr
    intro x _
    by_cases hxa : x = a
    · simp [hxa]
    · by_cases hxL : x ∈ L <;> simp [hxa, hxL]

theorem renameFile_of_lookup {d : Dir} {src : String} {b : Blob}
    (h : lookupFile d src = some b) (dst : String) :
    renameFile d src dst = writeFile (removeFile d src) dst b := by
  rw [renameFile, h]

/-! ## Name-prefix and sorting lemmas -/

theorem charsLe_total : ∀ as bs : List Char, charsLe as bs = true ∨ charsLe bs as = true
  | [], _ => Or.inl rfl
  | _ :: _, [] => Or.inr rfl
  | a :: as, b :: bs => by
    by_cases hab : a < b
    · left; simp [charsLe, hab]
    · by_cases hba : b < a
      · right; simp [charsLe, hba]
      · have heq : a = b := le_antisymm (not_lt.mp hba) (not_lt.mp hab)
        subst heq
        rcases charsLe_total as bs with h | h
        · left; simp [charsLe, h]
        · right; simp [charsLe, h]

theorem charsLe_trans : ∀ as bs cs : List Char,
    charsLe as bs = true → charsLe bs cs = true → charsLe as cs = true
  | [], _, _ => fun _ _ => rfl
  | _ :: _, [], _ => fun h _ => by simp [charsLe] at h
  | _ :: _, _ :: _, [] => fun _ h => by simp [charsLe] at h
  | a :: as, b :: bs, c :: cs => fun h1 h2 => by
    simp only [charsLe] at h1 h2 ⊢
    by_cases hab : a < b
    · by_cases hbc : b < c
      · simp [lt_trans hab hbc]
      · by_cases hbce : b = c
        · simp [hbce ▸ hab]
        · simp [hbc, hbce] at h2
    · by_cases habe : a = b
      · subst habe
        by_cases hbc : a < c
        · simp [hbc]
        · by_cases hbce : a = c
          · subst hbce
            rw [if_neg (lt_irrefl a), if_pos rfl] at h1 h2 ⊢
            exact charsLe_trans as bs cs h1 h2
          · simp [hbc, hbce] at h2
      · simp [hab, habe] at h1

theorem charsLe_antisymm : ∀ as bs : List Char,
    charsLe as bs = true → charsLe bs as = true → as = bs
  | [], [] => fun _ _ => rfl
  | [], _ :: _ => fun _ h => by simp [charsLe] at h
  | _ :: _, [] => fun h _ => by simp [charsLe] at h
  | a :: as, b :: bs => fun h1 h2 => by
    simp only [charsLe] at h1 h2
    by_cases hab : a < b
    · rw [if_neg (lt_asymm hab), if_neg (fun x : b = a => lt_irrefl a (x ▸ hab))] at h2
      exact absurd h2 (by simp)
    · by_cases habe : a = b
      · subst habe
        rw [if_neg (lt_irrefl a), if_pos rfl] at h1 h2
        rw [charsLe_antisymm as bs h1 h2]
      · simp [hab, habe] at h1

instance : IsTotal String lexLe :=
  ⟨fun a b => charsLe_total a.data b.data⟩

instance : IsTrans String lexLe :=
  ⟨fun a b c => charsLe_trans a.data b.data c.data⟩

instance : IsAntisymm String lexLe :=
  ⟨fun a b h1 h2 => by
    cases a with
    | mk da =>
      cases b with
      | mk db =>
        rw [charsLe_antisymm da db h1 h2]⟩

theorem lexLe_trans {a b c : String} (h1 : lexLe a b) (h2 : lexLe b c) : lexLe a c :=
  charsLe_trans a.data b.data c.data h1 h2

theorem charsHasPfx_append (l r : List Char) : charsHasPfx l (l ++ r) = true := by
  induction l with
  | nil => rfl
  | cons c l ih => simpa [charsHasPfx] using ih

theorem strHasPfx_append (pfx r : String) : strHasPfx (pfx ++ r) pfx = true := by
  rw [strHasPfx, String.data_append]
  exact charsHasPfx_append pfx.data r.data

theorem sortLex_perm (l : List String) : (sortLex l).Perm l :=
  List.perm_insertionSort _ l

theorem sortLex_sorted (l : List String) : (sortLex l).Sorted lexLe :=
  List.sorted_insertionSort _ l

theorem sortLex_eq_of_perm {l₁ l₂ : List String} (h : l₁.Perm l₂) :
    sortLex l₁ = sortLex l₂ :=
  List.eq_of_perm_of_sorted (((sortLex_perm l₁).trans h).trans (sortLex_perm l₂).symm)
    (sortLex_sorted l₁) (sortLex_sorted l₂)

theorem sortLex_eq_self {l : List String} (h : l.Sorted lexLe) : sortLex l = l :=
  List.Sorted.insertionSort_eq h

theorem orderedInsert_cons (x a : String) (t : List String) :
    (a :: t).orderedInsert lexLe x
      = if lexLe x a then x :: a :: t else a :: t.orderedInsert lexLe x := rfl

theorem sortLex_append_singleton (l : List String) (m : String) :
    sortLex (l ++ [m]) = (sortLex l).orderedInsert lexLe m := by
  refine List.eq_of_perm_of_sorted ?_ (sortLex_sorted _) ?_
  · refine ((sortLex_perm _).trans ?_).trans (List.perm_orderedInsert _ m _).symm
    exact (List.perm_append_singleton m l).trans (List.Perm.cons m (sortLex_perm l).symm)
  · exact List.Sorted.orderedInsert m (sortLex l) (sortLex_sorted l)

/-! ## Suffix-retention lemmas -/

theorem lastK_of_le {l : List α} {k : Nat} (h : l.length ≤ k) : lastK k l = l := by
  rw [lastK, Nat.sub_eq_zero_of_le h, List.drop_zero]

theorem lastK_zero (l : List α) : lastK 0 l = [] := by
  rw [lastK, Nat.sub_zero, List.drop_length]

theorem lastK_cons {l : List α} {k : Nat} (a : α) (h : k ≤ l.length) :
    lastK k (a :: l) = lastK k l := by
  rw [lastK, lastK, List.length_cons, show l.length + 1 - k = (l.length - k) + 1 by omega,
    List.drop_succ_cons]

theorem length_lastK {l : List α} {k : Nat} (h : k ≤ l.length) :
    (lastK k l).length = k := by
  rw [lastK, List.length_drop]
  omega

theorem lastK_sublist (k : Nat) (l : List α) : (lastK k l).Sublist l :=
  List.drop_sublist _ l

theorem lastK_sorted {l : List String} (k : Nat) (h : l.Sorted lexLe) :
    (lastK k l).Sorted lexLe :=
  h.sublist (lastK_sublist k l)

/-- Greedy step-by-step retention of the `k` greatest elements agrees with
global retention: inserting a new element into the retained suffix and
re-retaining gives the same result as retaining from the full sorted list. -/
theorem lastK_orderedInsert (k : Nat) (n : String) :
    ∀ (s : List String), s.Sorted lexLe →
      lastK k ((lastK k s).orderedInsert lexLe n)
        = lastK k (s.orderedInsert lexLe n) := by
  intro s
  induction s with
  | nil => intro _; simp [lastK]
  | cons a t ih =>
    intro hs
    by_cases hkt : k ≤ t.length
    · have hk1 : lastK k (a :: t) = lastK k t := lastK_cons a hkt
      rw [hk1, orderedInsert_cons]
      by_cases hna : lexLe n a
      · rw [if_pos hna]
        -- the new element is below the whole retained suffix
        rw [lastK_cons n (by simp only [List.length_cons]; omega), lastK_cons a hkt]
        rcases Nat.eq_zero_or_pos k with hk0 | hkpos
        · subst hk0
          simp [lastK_zero]
        · have hlen : (lastK k t).length = k := length_lastK hkt
          obtain ⟨b, u, hbu⟩ : ∃ b u, lastK k t = b :: u := by
            cases hx : lastK k t with
            | nil => rw [hx] at hlen; simp at hlen; omega
            | cons b u => exact ⟨b, u, rfl⟩
          have hab : ∀ x ∈ t, lexLe a x := List.rel_of_sorted_cons hs
          have hnb : lexLe n b := by
            refine lexLe_trans hna (hab b ?_)
            have hbm : b ∈ lastK k t := by rw [hbu]; exact List.mem_cons_self b u
            exact (lastK_sublist k t).subset hbm
          have hbk : k ≤ (b :: u).length := by rw [← hbu, hlen]
          rw [hbu, orderedInsert_cons, if_pos hnb, lastK_cons n hbk,
            lastK_of_le (le_of_eq (hbu ▸ hlen))]
      · rw [if_neg hna]
        rw [lastK_cons a (by rw [List.orderedInsert_length]; omega)]
        exact ih (List.sorted_cons.mp hs).2
    · -- the whole list is retained on both sides
      have hle : (a :: t).length ≤ k := by simp only [List.length_cons]; omega
      rw [lastK_of_le hle]

/-! ## Retention-cleanup dynamics -/

theorem retentionCandidates_sorted (d : Dir) (pfx : String) :
    (retentionCandidates d pfx).Sorted lexLe :=
  sortLex_sorted _

theorem retentionCandidates_nodup {d : Dir} (pfx : String)
    (hnd : (listdir d).Nodup) : (retentionCandidates d pfx).Nodup :=
  (sortLex_perm _).nodup_iff.mpr (hnd.filter _)

theorem filter_not_mem_of_append {α : Type} [DecidableEq α] {xs ys : List α}
    (h : (xs ++ ys).Nodup) :
    (xs ++ ys).filter (fun a => decide (a ∉ xs)) = ys := by
  rw [List.filter_append]
  have h1 : xs.filter (fun a => decide (a ∉ xs)) = [] := by
    apply List.filter_eq_nil_iff.mpr
    intro a ha
    simp [ha]
  have h2 : ys.filter (fun a => decide (a ∉ xs)) = ys := by
    apply List.filter_eq_self.mpr
    intro a ha
    have hdisj := (List.nodup_append.mp h).2.2
    simp only [decide_eq_true_eq]
    intro hax
    exact hdisj hax ha
  rw [h1, h2, List.nil_append]

/-- What one retention cleanup leaves behind: exactly the `keep`
lexicographically greatest matching names (all of them when fewer). -/
theorem cleanup_spec (d3 : Dir) (pfx : String) (keep : Nat) (hk : 1 ≤ keep)
    (hnd : (listdir d3).Nodup) :
    retentionCandidates (removeFiles d3 (oldCkpts d3 pfx keep)) pfx
      = lastK keep (retentionCandidates d3 pfx) := by
  have hcnodup : (retentionCandidates d3 pfx).Nodup := retentionCandidates_nodup pfx hnd
  by_cases hlen : (retentionCandidates d3 pfx).length > keep
  · have hold : oldCkpts d3 pfx keep
        = (retentionCandidates d3 pfx).take ((retentionCandidates d3 pfx).length - keep) := by
      show (if (retentionCandidates d3 pfx).length > keep then _ else _) = _
      rw [if_pos hlen, if_neg (by omega)]
    have hdisj : ∀ x ∈ (retentionCandidates d3 pfx).drop
        ((retentionCandidates d3 pfx).length - keep),
        x ∉ (retentionCandidates d3 pfx).take ((retentionCandidates d3 pfx).length - keep) := by
      have hnd2 := (List.take_append_drop ((retentionCandidates d3 pfx).length - keep)
        (retentionCandidates d3 pfx)) ▸ hcnodup
      have hsplit := List.nodup_append.mp hnd2
      intro x hx hxr
      exact hsplit.2.2 hxr hx
    rw [hold, retentionCandidates, listdir_removeFiles, List.filter_filter]
    have hswap : (listdir d3).filter (fun a => strHasPfx a pfx &&
          decide (a ∉ (retentionCandidates d3 pfx).take
            ((retentionCandidates d3 pfx).length - keep)))
        = ((listdir d3).filter (fun p => strHasPfx p pfx)).filter
            (fun a => decide (a ∉ (retentionCandidates d3 pfx).take
              ((retentionCandidates d3 pfx).length - keep))) := by
      rw [List.filter_filter]
      exact List.filter_congr (fun x _ => Bool.and_comm _ _)
    rw [hswap]
    have hperm : (((listdir d3).filter (fun p => strHasPfx p pfx)).filter
        (fun a => decide (a ∉ (retentionCandidates d3 pfx).take
          ((retentionCandidates d3 pfx).length - keep)))).Perm
        ((retentionCandidates d3 pfx).filter
          (fun a => decide (a ∉ (retentionCandidates d3 pfx).take
            ((retentionCandidates d3 pfx).length - keep)))) :=
      List.Perm.filter _ (sortLex_perm _).symm
    rw [show sortLex (((listdir d3).filter (fun p => strHasPfx p pfx)).filter
        (fun a => decide (a ∉ (retentionCandidates d3 pfx).take
          ((retentionCandidates d3 pfx).length - keep)))) = _ from sortLex_eq_of_perm hperm]
    have hcfilter := @filter_not_mem_of_append String _
      ((retentionCandidates d3 pfx).take ((retentionCandidates d3 pfx).length - keep))
      ((retentionCandidates d3 pfx).drop ((retentionCandidates d3 pfx).length - keep))
      (by rw [List.take_append_drop]; exact hcnodup)
    rw [List.take_append_drop] at hcfilter
    rw [hcfilter]
    exact sortLex_eq_self (lastK_sorted keep (retentionCandidates_sorted d3 pfx))
  · have hold : oldCkpts d3 pfx keep = [] := by
      show (if (retentionCandidates d3 pfx).length > keep then _ else _) = _
      rw [if_neg hlen]
    rw [hold]
    show retentionCandidates d3 pfx = _
    rw [lastK_of_le (by omega)]

/-- One successful save with a fresh step name: the run succeeds and the
sorted remaining names are the `keep` greatest of the names seen so far. -/
theorem save_checkpoint_step (pfx : String) (keep : Nat) (d : Dir) (all : List String)
    (s : Int) (b : Blob)
    (hk : 1 ≤ keep)
    (hall : all.Nodup)
    (hallpfx : ∀ n ∈ all, strHasPfx n pfx = true)
    (htmp : (pfx ++ "tmp") ∉ all)
    (hinv : sortLex (listdir d) = lastK keep (sortLex all))
    (hm : (pfx ++ toString s) ∉ all)
    (hmtmp : pfx ++ toString s ≠ pfx ++ "tmp") :
    (save_checkpoint d b s pfx keep false).2 = .ok (pfx ++ toString s) ∧
    sortLex (listdir (save_checkpoint d b s pfx keep false).1)
      = lastK keep (sortLex (all ++ [pfx ++ toString s])) := by
  have hperm : (listdir d).Perm (lastK keep (sortLex all)) :=
    (hinv ▸ sortLex_perm (listdir d)).symm
  have hsub : ∀ n ∈ listdir d, n ∈ all := by
    intro n hn
    have h1 : n ∈ lastK keep (sortLex all) := hperm.subset hn
    have h2 : n ∈ sortLex all := (lastK_sublist _ _).subset h1
    exact (sortLex_perm all).subset h2
  have hsortall_nodup : (sortLex all).Nodup := (sortLex_perm all).nodup_iff.mpr hall
  have hndd : (listdir d).Nodup :=
    hperm.nodup_iff.mpr
      (List.Pairwise.sublist (lastK_sublist keep (sortLex all)) hsortall_nodup)
  have htmpd : (pfx ++ "tmp") ∉ listdir d := fun hx => htmp (hsub _ hx)
  have hmd : (pfx ++ toString s) ∉ listdir d := fun hx => hm (hsub _ hx)
  have hfe : fileExists (writeFile d (pfx ++ "tmp") b) (pfx ++ toString s) = false := by
    rw [fileExists_writeFile]
    have h1 : fileExists d (pfx ++ toString s) = false := fileExists_eq_false_iff.mpr hmd
    have h2 : ((pfx ++ toString s) == (pfx ++ "tmp")) = false := by
      exact beq_eq_false_iff_ne.mpr hmtmp
    rw [h1, h2, Bool.or_false]
  have hrun : save_checkpoint d b s pfx keep false
      = saveFinish (writeFile d (pfx ++ "tmp") b) (pfx ++ "tmp") (pfx ++ toString s)
          pfx keep := by
    simp [save_checkpoint, hfe]
  have hld1 : listdir (writeFile d (pfx ++ "tmp") b) = listdir d ++ [pfx ++ "tmp"] :=
    listdir_writeFile_of_not_mem b htmpd
  have hlrm : listdir (removeFile (writeFile d (pfx ++ "tmp") b) (pfx ++ "tmp"))
      = listdir d := by
    rw [listdir_removeFile, hld1, List.filter_append]
    have h1 : (listdir d).filter (fun x => x != (pfx ++ "tmp")) = listdir d :=
      List.filter_eq_self.mpr
        (fun a ha => bne_iff_ne.mpr (fun hx => htmpd (hx ▸ ha)))
    have h2 : ([pfx ++ "tmp"] : List String).filter (fun x => x != (pfx ++ "tmp")) = [] := by
      simp
    rw [h1, h2, List.append_nil]
  have hd3 : renameFile (writeFile d (pfx ++ "tmp") b) (pfx ++ "tmp") (pfx ++ toString s)
      = writeFile (removeFile (writeFile d (pfx ++ "tmp") b) (pfx ++ "tmp"))
          (pfx ++ toString s) b :=
    renameFile_of_lookup (lookupFile_writeFile_self d _ b) _
  have hld3 : listdir (renameFile (writeFile d (pfx ++ "tmp") b) (pfx ++ "tmp")
      (pfx ++ toString s)) = listdir d ++ [pfx ++ toString s] := by
    rw [hd3, listdir_writeFile_of_not_mem b (by rw [hlrm]; exact hmd), hlrm]
  have hnd3 : (listdir (renameFile (writeFile d (pfx ++ "tmp") b) (pfx ++ "tmp")
      (pfx ++ toString s))).Nodup := by
    rw [hld3]
    refine List.nodup_append.mpr ⟨hndd, List.nodup_singleton _, ?_⟩
    intro x hx hxm
    rw [List.mem_singleton.mp hxm] at hx
    exact hmd hx
  have hcand3 : retentionCandidates (renameFile (writeFile d (pfx ++ "tmp") b)
      (pfx ++ "tmp") (pfx ++ toString s)) pfx = sortLex (listdir d ++ [pfx ++ toString s]) := by
    rw [retentionCandidates, hld3]
    congr 1
    apply List.filter_eq_self.mpr
    intro a ha
    rcases List.mem_append.mp ha with h | h
    · exact hallpfx a (hsub a h)
    · rw [List.mem_singleton.mp h]
      exact strHasPfx_append pfx (toString s)
  refine ⟨by rw [hrun]; rfl, ?_⟩
  rw [hrun]
  show sortLex (listdir (removeFiles _ (oldCkpts _ pfx keep))) = _
  have hallnames : ∀ a ∈ listdir (removeFiles
      (renameFile (writeFile d (pfx ++ "tmp") b) (pfx ++ "tmp") (pfx ++ toString s))
      (oldCkpts (renameFile (writeFile d (pfx ++ "tmp") b) (pfx ++ "tmp")
        (pfx ++ toString s)) pfx keep)), strHasPfx a pfx = true := by
    intro a ha
    rw [listdir_removeFiles] at ha
    have ha2 := List.mem_of_mem_filter ha
    rw [hld3] at ha2
    rcases List.mem_append.mp ha2 with h | h
    · exact hallpfx a (hsub a h)
    · rw [List.mem_singleton.mp h]
      exact strHasPfx_append pfx (toString s)
  have hconv : sortLex (listdir (removeFiles
      (renameFile (writeFile d (pfx ++ "tmp") b) (pfx ++ "tmp") (pfx ++ toString s))
      (oldCkpts (renameFile (writeFile d (pfx ++ "tmp") b) (pfx ++ "tmp")
        (pfx ++ toString s)) pfx keep)))
      = retentionCandidates (removeFiles
        (renameFile (writeFile d (pfx ++ "tmp") b) (pfx ++ "tmp") (pfx ++ toString s))
        (oldCkpts (renameFile (writeFile d (pfx ++ "tmp") b) (pfx ++ "tmp")
          (pfx ++ toString s)) pfx keep)) pfx := by
    rw [retentionCandidates, List.filter_eq_self.mpr hallnames]
  rw [hconv, cleanup_spec _ pfx keep hk hnd3, hcand3, sortLex_append_singleton, hinv,
    lastK_orderedInsert keep _ (sortLex all) (sortLex_sorted all), ← sortLex_append_singleton]

/-- Invariant-carrying induction over a sequence of saves with fresh names:
every save succeeds and the directory retains the `keep` lexicographically
greatest names seen so far. -/
theorem saveAllFrom_spec (pfx : String) (keep : Nat) (hk : 1 ≤ keep) :
    ∀ (steps : List Int) (d : Dir) (all : List String),
      all.Nodup →
      (∀ n ∈ all, strHasPfx n pfx = true) →
      (pfx ++ "tmp") ∉ all →
      sortLex (listdir d) = lastK keep (sortLex all) →
      (∀ s ∈ steps, (pfx ++ toString s) ∉ all) →
      (steps.map (fun s => pfx ++ toString s)).Nodup →
      (pfx ++ "tmp") ∉ steps.map (fun s => pfx ++ toString s) →
      (saveAllFrom d steps pfx keep).2 = true ∧
      sortLex (listdir (saveAllFrom d steps pfx keep).1)
        = lastK keep (sortLex (all ++ steps.map (fun s => pfx ++ toString s))) := by
  intro steps
  induction steps with
  | nil =>
    intro d all _ _ _ hinv _ _ _
    exact ⟨rfl, by simpa using hinv⟩
  | cons s rest ih =>
    intro d all hall hallpfx htmp hinv hfresh hndsteps htmpsteps
    have hmem : pfx ++ toString s ∉ all := hfresh s (List.mem_cons_self s rest)
    have hmtmp : pfx ++ toString s ≠ pfx ++ "tmp" := by
      intro hx
      apply htmpsteps
      rw [List.map_cons, ← hx]
      exact List.mem_cons_self _ _
    have hstep := save_checkpoint_step pfx keep d all s 0 hk hall hallpfx htmp hinv
      hmem hmtmp
    rcases hsc : save_checkpoint d 0 s pfx keep false with ⟨d', r⟩
    rw [hsc] at hstep
    have hr : r = .ok (pfx ++ toString s) := hstep.1
    subst hr
    have hunfold : saveAllFrom d (s :: rest) pfx keep = saveAllFrom d' rest pfx keep := by
      rw [saveAllFrom, hsc]
    rw [hunfold]
    have hndcons := hndsteps
    rw [List.map_cons, List.nodup_cons] at hndcons
    have hih := ih d' (all ++ [pfx ++ toString s])
      (by
        refine List.nodup_append.mpr ⟨hall, List.nodup_singleton _, ?_⟩
        intro x hx hxm
        rw [List.mem_singleton.mp hxm] at hx
        exact hmem hx)
      (by
        intro n hn
        rcases List.mem_append.mp hn with h | h
        · exact hallpfx n h
        · rw [List.mem_singleton.mp h]
          exact strHasPfx_append pfx (toString s))
      (by
        intro hx
        rcases List.mem_append.mp hx with h | h
        · exact htmp h
        · exact hmtmp (List.mem_singleton.mp h).symm)
      hstep.2
      (by
        intro t ht hx
        rcases List.mem_append.mp hx with h | h
        · exact hfresh t (List.mem_cons_of_mem s ht) h
        · exact hndcons.1 ((List.mem_singleton.mp h) ▸ List.mem_map_of_mem _ ht))
      hndcons.2
      (by
        intro hx
        apply htmpsteps
        rw [List.map_cons]
        exact List.mem_cons_of_mem _ hx)
    refine ⟨hih.1, ?_⟩
    rw [hih.2, List.map_cons]
    have hassoc : all ++ [pfx ++ toString s] ++ rest.map (fun t => pfx ++ toString t)
        = all ++ ((pfx ++ toString s) :: rest.map (fun t => pfx ++ toString t)) := by
      simp
    rw [hassoc]

/-! ## Remaining auxiliary lemmas -/

instance {α : Type} [DecidableEq α] : DecidableEq (Except CkptErr α) := fun x y =>
  match x, y with
  | .error a, .error b =>
    match decEq a b with
    | isTrue h => isTrue (h ▸ rfl)
    | isFalse h => isFalse (fun hx => h (Except.error.inj hx))
  | .ok a, .ok b =>
    match decEq a b with
    | isTrue h => isTrue (h ▸ rfl)
    | isFalse h => isFalse (fun hx => h (Except.ok.inj hx))
  | .error _, .ok _ => isFalse (fun hx => Except.noConfusion hx)
  | .ok _, .error _ => isFalse (fun hx => Except.noConfusion hx)

theorem mem_of_getLast?_eq {α : Type} {l : List α} {a : α}
    (h : l.getLast? = some a) : a ∈ l := by
  obtain ⟨hne, hx⟩ := List.mem_getLast?_eq_getLast (Option.mem_def.mpr h)
  rw [hx]
  exact List.getLast_mem hne

theorem string_append_right_ne {p a b : String} (h : a ≠ b) : p ++ a ≠ p ++ b := by
  intro hx
  apply h
  have hd : (p ++ a).data = (p ++ b).data := by rw [hx]
  rw [String.data_append, String.data_append] at hd
  have := List.append_cancel_left hd
  cases a with
  | mk da =>
    cases b with
    | mk db =>
      simp only at this
      rw [this]

/-- If a `waitLoop` run finds a path, that path came from
`latest_checkpoint_path` on one of the observed directory states, and it
differs from the cursor `last`. -/
theorem waitLoop_found (ckpt_dir pfx : String) (last : Option String)
    (sl : ℚ) (st : Option ℚ) :
    ∀ (polls : List Poll) (p : String),
      waitLoop ckpt_dir pfx last sl st polls = some (some p) →
      (∃ q ∈ polls, latest_checkpoint_path ckpt_dir q.dir pfx = some p) ∧
        some p ≠ last := by
  intro polls
  induction polls with
  | nil => intro p h; exact absurd h (by simp [waitLoop])
  | cons q rest ih =>
    intro p h
    rw [waitLoop.eq_def] at h
    simp only at h
    split at h
    · cases st with
      | some stt =>
        simp only at h
        split at h
        · exact absurd h (by simp)
        · obtain ⟨⟨qq, hq1, hq2⟩, h2⟩ := ih p h
          exact ⟨⟨qq, List.mem_cons_of_mem q hq1, hq2⟩, h2⟩
      | none =>
        simp only at h
        obtain ⟨⟨qq, hq1, hq2⟩, h2⟩ := ih p h
        exact ⟨⟨qq, List.mem_cons_of_mem q hq1, hq2⟩, h2⟩
    · rename_i hcond
      push_neg at hcond
      have hcp : latest_checkpoint_path ckpt_dir q.dir pfx = some p := by
        injection h
      exact ⟨⟨q, List.mem_cons_self q rest, hcp⟩, hcp ▸ hcond.2⟩

/-- With no deadline configured, `waitLoop` can never return the timeout
value `some none`. -/
theorem waitLoop_no_timeout (ckpt_dir pfx : String) (last : Option String) (sl : ℚ) :
    ∀ polls : List Poll,
      waitLoop ckpt_dir pfx last sl none polls ≠ some none := by
  intro polls
  induction polls with
  | nil => simp [waitLoop]
  | cons q rest ih =>
    rw [waitLoop.eq_def]
    simp only
    split
    · exact ih
    · rename_i hcond
      push_neg at hcond
      intro hx
      exact hcond.1 (by injection hx)

/-- The latest-path resolver never returns the reserved temp path. -/
theorem latest_checkpoint_path_ne_tmp (ckpt_dir : String) (d : Dir) (pfx : String) :
    latest_checkpoint_path ckpt_dir d pfx ≠ some (_checkpoint_path ckpt_dir "tmp" pfx) := by
  intro h
  rw [latest_checkpoint_path] at h
  have hmem := mem_of_getLast?_eq h
  have hpred := List.of_mem_filter hmem
  simp only [decide_eq_true_eq] at hpred
  exact hpred rfl

/-- Every name the retention cleanup considers is a current directory entry. -/
theorem mem_listdir_of_mem_retentionCandidates {d : Dir} {pfx n : String}
    (h : n ∈ retentionCandidates d pfx) : n ∈ listdir d :=
  List.mem_of_mem_filter ((sortLex_perm _).subset h)

theorem oldCkpts_subset_retentionCandidates {d : Dir} {pfx : String} {keep : Nat} :
    ∀ n ∈ oldCkpts d pfx keep, n ∈ retentionCandidates d pfx := by
  intro n hn
  rw [oldCkpts] at hn
  split at hn
  · split at hn
    · exact absurd hn (by simp)
    · exact List.take_subset _ _ hn
  · exact absurd hn (by simp)

/-! ## The claims -/

/-- C5: the natural-order comparator sorts embedded numeric substrings by
parsed numeric value and literal segments by character order; sorting any
arrangement of `file_1, file_10, file_2` yields exactly
`[file_1, file_2, file_10]`, never the lexicographic order.  (The first
conjunct records that `natural_sort` is a genuine sort: a permutation of its
input.) -/
theorem C5_natural_order :
    (∀ (l : List String) (sg : Bool), (natural_sort l sg).Perm l) ∧
    natural_sort ["file_1", "file_10", "file_2"] = ["file_1", "file_2", "file_10"] ∧
    natural_sort ["file_1", "file_2", "file_10"] = ["file_1", "file_2", "file_10"] ∧
    natural_sort ["file_10", "file_1", "file_2"] = ["file_1", "file_2", "file_10"] ∧
    natural_sort ["file_10", "file_2", "file_1"] = ["file_1", "file_2", "file_10"] ∧
    natural_sort ["file_2", "file_1", "file_10"] = ["file_1", "file_2", "file_10"] ∧
    natural_sort ["file_2", "file_10", "file_1"] = ["file_1", "file_2", "file_10"] ∧
    natural_sort ["file_1", "file_10", "file_2"] ≠ ["file_1", "file_10", "file_2"] :=
  ⟨fun l _ => List.perm_insertionSort _ l, by decide, by decide, by decide, by decide,
    by decide, by decide, by decide⟩

/-- C6 counterexample: with `signed := false` the leading `-` is *not* kept
as a literal separator token.  `re.split` consumes it as part of the match
while the capture group excludes it, so it vanishes: the sort keys of
`file_-2` and `file_2` are identical, and `file_-2` participates numerically
(as 2), e.g. it does not sort below `file_0.1`. -/
theorem C6_counterexample :
    split_keys false "file_-2" = split_keys false "file_2" ∧
    natural_sort ["file_2", "file_-2"] false = ["file_2", "file_-2"] ∧
    natural_sort ["file_0.1", "file_-2"] false = ["file_0.1", "file_-2"] :=
  ⟨by decide, by decide, by decide⟩

/-- C6 (amended): with `signed=true` a leading sign is captured as part of
the number, so `file_-2 < file_0.1 < file_2.0`; with `signed=false` the
leading sign is consumed by the match but captured by no group, so it is
dropped from the key entirely — it participates neither as part of the
number nor as literal text (`file_-2` keys as the number 2). -/
theorem C6_signed_semantics_amended :
    natural_sort ["file_0.1", "file_-2", "file_2.0"] = ["file_-2", "file_0.1", "file_2.0"] ∧
    split_keys true "file_-2" = [.str "file_", .num ⟨-2, 0⟩, .str ""] ∧
    split_keys false "file_-2" = [.str "file_", .num ⟨2, 0⟩, .str ""] ∧
    natural_sort ["file_-2", "file_0.1", "file_2.0"] false
      = ["file_0.1", "file_-2", "file_2.0"] :=
  ⟨by decide, by decide, by decide, by decide⟩

/-- C10: `restore_from_path` ignores its `target` argument entirely — any
two targets give identical results. -/
theorem C10_target_ignored (ckpt_dir : String) (d : Dir) (p : String) (t1 t2 : Blob) :
    restore_from_path ckpt_dir d p t1 = restore_from_path ckpt_dir d p t2 := rfl

/-- C3 counterexample: `restore_checkpoint` branches on Python truthiness
(`if step:`), so the explicitly given step `0` is treated like "no step":
on an empty directory it returns the target unchanged instead of failing
with NotFound, refuting "for every given step, if the checkpoint file for
that step is absent, Restore fails with NotFound". -/
theorem C3_counterexample :
    restore_checkpoint "d" [] 7 (some 0) "checkpoint_" = .ok 7 ∧
    restore_checkpoint "d" [] 7 (some 0) "checkpoint_" ≠ .error .notFound :=
  ⟨by decide, by decide⟩

/-- C3 (amended): restore is strict for an explicit *nonzero* step (absent
file ⇒ NotFound) and lenient for the implicit latest (no matching
checkpoints ⇒ the supplied target is returned unchanged); a given step of
`0` is falsy in Python and behaves exactly like no step at all. -/
theorem C3_restore_asymmetry_amended :
    (∀ (ckpt_dir : String) (d : Dir) (t : Blob) (s : Int) (pfx : String),
      s ≠ 0 →
      lookupPath ckpt_dir d (_checkpoint_path ckpt_dir (toString s) pfx) = none →
      restore_checkpoint ckpt_dir d t (some s) pfx = .error .notFound) ∧
    (∀ (ckpt_dir : String) (d : Dir) (t : Blob) (pfx : String),
      (listdir d).filter (fun n => strHasPfx n pfx) = [] →
      restore_checkpoint ckpt_dir d t none pfx = .ok t) ∧
    (∀ (ckpt_dir : String) (d : Dir) (t : Blob) (pfx : String),
      restore_checkpoint ckpt_dir d t (some 0) pfx
        = restore_checkpoint ckpt_dir d t none pfx) := by
  refine ⟨?_, ?_, ?_⟩
  · intro ckpt_dir d t s pfx hs hl
    rw [restore_checkpoint, if_neg hs]
    show (if (lookupPath ckpt_dir d (_checkpoint_path ckpt_dir (toString s) pfx)).isSome = true
        then _ else _) = _
    rw [hl]
    rfl
  · intro ckpt_dir d t pfx hfil
    have hlat : latest_checkpoint_path ckpt_dir d pfx = none := by
      rw [latest_checkpoint_path, hfil]
      rfl
    rw [restore_checkpoint, restoreLatest, hlat]
  · intro ckpt_dir d t pfx
    rw [restore_checkpoint, if_pos rfl, restore_checkpoint]

/-- C3 amended, exercised at concrete inputs. -/
theorem C3_restore_asymmetry_amended_witness :
    ((5 : Int) ≠ 0 ∧
      lookupPath "d" [] (_checkpoint_path "d" (toString (5 : Int)) "checkpoint_") = none ∧
      restore_checkpoint "d" [] 7 (some 5) "checkpoint_" = .error .notFound) ∧
    ((listdir ([] : Dir)).filter (fun n => strHasPfx n "checkpoint_") = [] ∧
      restore_checkpoint "d" [] 7 none "checkpoint_" = .ok 7) :=
  ⟨⟨by decide, by decide,
      C3_restore_asymmetry_amended.1 "d" [] 7 5 "checkpoint_" (by decide) (by decide)⟩,
    ⟨by decide, C3_restore_asymmetry_amended.2.1 "d" [] 7 "checkpoint_" (by decide)⟩⟩

/-- C4: the reserved `<prefix>tmp` is never treated as a checkpoint: it is
excluded from every `latest_checkpoint_path` result, from every watcher
result, and from the retention candidates (and hence the removal set) of the
cleanup phase of any save run — the cleanup listing happens only after the
rename, which has already taken the temp name out of the directory. -/
theorem C4_tmp_excluded :
    (∀ (ckpt_dir : String) (d : Dir) (pfx : String),
      latest_checkpoint_path ckpt_dir d pfx
        ≠ some (_checkpoint_path ckpt_dir "tmp" pfx)) ∧
    (∀ (ckpt_dir pfx : String) (last : Option String) (sl : ℚ) (st : Option ℚ)
       (polls : List Poll) (p : String),
      waitLoop ckpt_dir pfx last sl st polls = some (some p) →
      p ≠ _checkpoint_path ckpt_dir "tmp" pfx) ∧
    (∀ (d2 : Dir) (step : Int) (pfx : String) (keep : Nat),
      toString step ≠ "tmp" →
      (pfx ++ "tmp") ∉ retentionCandidates
          (renameFile d2 (pfx ++ "tmp") (pfx ++ toString step)) pfx ∧
        (pfx ++ "tmp") ∉ oldCkpts
          (renameFile d2 (pfx ++ "tmp") (pfx ++ toString step)) pfx keep) := by
  refine ⟨latest_checkpoint_path_ne_tmp, ?_, ?_⟩
  · intro ckpt_dir pfx last sl st polls p h
    obtain ⟨⟨q, _, hq⟩, _⟩ := waitLoop_found ckpt_dir pfx last sl st polls p h
    intro hx
    exact latest_checkpoint_path_ne_tmp ckpt_dir q.dir pfx (hx ▸ hq)
  · intro d2 step pfx keep hstep
    have hne : pfx ++ toString step ≠ pfx ++ "tmp" := string_append_right_ne hstep
    have hmem : (pfx ++ "tmp") ∉ listdir (renameFile d2 (pfx ++ "tmp")
        (pfx ++ toString step)) := by
      rw [renameFile.eq_def]
      split
      · rename_i b hb
        intro hx
        rw [← fileExists_iff_mem, fileExists_writeFile] at hx
        rcases Bool.or_eq_true_iff.mp hx with h | h
        · exact hne (beq_iff_eq.mp h).symm
        · rw [fileExists] at h
          rw [lookupFile_removeFile_self] at h
          exact Bool.noConfusion h
      · rename_i hb
        intro hx
        rw [← fileExists_iff_mem, fileExists] at hx
        rw [hb] at hx
        exact Bool.noConfusion hx
    refine ⟨fun hx => hmem (mem_listdir_of_mem_retentionCandidates hx), fun hx =>
      hmem (mem_listdir_of_mem_retentionCandidates
        (oldCkpts_subset_retentionCandidates _ hx))⟩

/-- C4, exercised at concrete inputs. -/
theorem C4_tmp_excluded_witness :
    latest_checkpoint_path "d" [("checkpoint_5", 0)] "checkpoint_"
      ≠ some (_checkpoint_path "d" "tmp" "checkpoint_") ∧
    (waitLoop "d" "checkpoint_" none 1 none [⟨[("checkpoint_5", 0)], 0⟩]
        = some (some "d/checkpoint_5") ∧
      "d/checkpoint_5" ≠ _checkpoint_path "d" "tmp" "checkpoint_") ∧
    (toString (5 : Int) ≠ "tmp" ∧
      ("checkpoint_" ++ "tmp") ∉ retentionCandidates
        (renameFile [("checkpoint_tmp", 3)] ("checkpoint_" ++ "tmp")
          ("checkpoint_" ++ toString (5 : Int))) "checkpoint_" ∧
      ("checkpoint_" ++ "tmp") ∉ oldCkpts
        (renameFile [("checkpoint_tmp", 3)] ("checkpoint_" ++ "tmp")
          ("checkpoint_" ++ toString (5 : Int))) "checkpoint_" 1) :=
  ⟨C4_tmp_excluded.1 "d" [("checkpoint_5", 0)] "checkpoint_",
    ⟨by decide,
      C4_tmp_excluded.2.1 "d" "checkpoint_" none 1 none [⟨[("checkpoint_5", 0)], 0⟩]
        "d/checkpoint_5" (by decide)⟩,
    ⟨by decide,
      (C4_tmp_excluded.2.2 [("checkpoint_tmp", 3)] 5 "checkpoint_" 1 (by decide)).1,
      (C4_tmp_excluded.2.2 [("checkpoint_tmp", 3)] 5 "checkpoint_" 1 (by decide)).2⟩⟩

/-- C9: when `save_checkpoint` raises because the target exists and
overwrite is off, the new blob has already been written to `<prefix>tmp`
and stays there; no file under any other name is created, removed, or
changed. -/
theorem C9_failed_save_leaves_tmp (d : Dir) (b : Blob) (step : Int) (pfx : String)
    (keep : Nat) (hex : fileExists d (pfx ++ toString step) = true) :
    save_checkpoint d b step pfx keep false
      = (writeFile d (pfx ++ "tmp") b, .error .alreadyExists) ∧
    lookupFile (save_checkpoint d b step pfx keep false).1 (pfx ++ "tmp") = some b ∧
    ∀ n, n ≠ pfx ++ "tmp" →
      lookupFile (save_checkpoint d b step pfx keep false).1 n = lookupFile d n := by
  have hfe : fileExists (writeFile d (pfx ++ "tmp") b) (pfx ++ toString step) = true := by
    rw [fileExists_writeFile, hex, Bool.or_true]
  have hrun : save_checkpoint d b step pfx keep false
      = (writeFile d (pfx ++ "tmp") b, .error .alreadyExists) := by
    simp [save_checkpoint, hfe]
  refine ⟨hrun, ?_, ?_⟩
  · rw [hrun]
    exact lookupFile_writeFile_self d _ b
  · intro n hn
    rw [hrun]
    exact lookupFile_writeFile_ne d b hn

/-- C9, exercised at a concrete input. -/
theorem C9_failed_save_leaves_tmp_witness :
    fileExists [("checkpoint_1", 5)] ("checkpoint_" ++ toString (1 : Int)) = true ∧
    (save_checkpoint [("checkpoint_1", 5)] 9 1 "checkpoint_" 1 false
        = (writeFile [("checkpoint_1", 5)] ("checkpoint_" ++ "tmp") 9,
            .error .alreadyExists) ∧
      lookupFile (save_checkpoint [("checkpoint_1", 5)] 9 1 "checkpoint_" 1 false).1
          ("checkpoint_" ++ "tmp") = some 9 ∧
      lookupFile (save_checkpoint [("checkpoint_1", 5)] 9 1 "checkpoint_" 1 false).1
          "checkpoint_1" = lookupFile [("checkpoint_1", 5)] "checkpoint_1") :=
  ⟨by decide,
    (C9_failed_save_leaves_tmp [("checkpoint_1", 5)] 9 1 "checkpoint_" 1 (by decide)).1,
    (C9_failed_save_leaves_tmp [("checkpoint_1", 5)] 9 1 "checkpoint_" 1 (by decide)).2.1,
    (C9_failed_save_leaves_tmp [("checkpoint_1", 5)] 9 1 "checkpoint_" 1 (by decide)).2.2
      "checkpoint_1" (by decide)⟩

/-- C7 counterexample: a save onto an existing target with `overwrite=true`
succeeds, but the retention cleanup (which runs after the rename and sorts
lexicographically) can delete the just-renamed target itself, so "the path
holds the new blob" fails.  Here `checkpoint_1` is overwritten while
`checkpoint_2` also exists with `keep=1`: the save returns `checkpoint_1`
yet afterwards only `checkpoint_2` remains. -/
theorem C7_counterexample :
    fileExists [("checkpoint_1", 5), ("checkpoint_2", 6)]
      ("checkpoint_" ++ toString (1 : Int)) = true ∧
    save_checkpoint [("checkpoint_1", 5), ("checkpoint_2", 6)] 7 1 "checkpoint_" 1 true
      = ([("checkpoint_2", 6)], .ok "checkpoint_1") ∧
    lookupFile (save_checkpoint [("checkpoint_1", 5), ("checkpoint_2", 6)]
      7 1 "checkpoint_" 1 true).1 "checkpoint_1" = none :=
  ⟨by decide, by decide, by decide⟩

/-- C7 (amended): with the target present and overwrite unset, the save
fails with AlreadyExists and the target's content is untouched; with
overwrite set it removes the target, succeeds, and the old content is gone —
but the path holds the new blob only if the subsequent retention cleanup
retains it (guaranteed e.g. when the matching-file count does not exceed
`keep`); otherwise the freshly saved file itself may be deleted. -/
theorem C7_overwrite_amended (d : Dir) (b oldb : Blob) (step : Int) (pfx : String)
    (keep : Nat)
    (hex : lookupFile d (pfx ++ toString step) = some oldb)
    (hstep : toString step ≠ "tmp") :
    (save_checkpoint d b step pfx keep false
        = (writeFile d (pfx ++ "tmp") b, .error .alreadyExists) ∧
      lookupFile (save_checkpoint d b step pfx keep false).1 (pfx ++ toString step)
        = some oldb) ∧
    ((save_checkpoint d b step pfx keep true).2 = .ok (pfx ++ toString step) ∧
      (lookupFile (save_checkpoint d b step pfx keep true).1 (pfx ++ toString step)
          = some b ∨
        lookupFile (save_checkpoint d b step pfx keep true).1 (pfx ++ toString step)
          = none) ∧
      (oldb ≠ b →
        lookupFile (save_checkpoint d b step pfx keep true).1 (pfx ++ toString step)
          ≠ some oldb) ∧
      ((pfx ++ "tmp") ∉ listdir d → (listdir d).Nodup →
        ((listdir d).filter (fun n => strHasPfx n pfx)).length ≤ keep →
        lookupFile (save_checkpoint d b step pfx keep true).1 (pfx ++ toString step)
          = some b)) := by
  have hne : pfx ++ toString step ≠ pfx ++ "tmp" := string_append_right_ne hstep
  have hfd : fileExists d (pfx ++ toString step) = true := by
    rw [fileExists, hex]
    rfl
  have hfe : fileExists (writeFile d (pfx ++ "tmp") b) (pfx ++ toString step) = true := by
    rw [fileExists_writeFile, hfd, Bool.or_true]
  have hrunf : save_checkpoint d b step pfx keep false
      = (writeFile d (pfx ++ "tmp") b, .error .alreadyExists) := by
    simp [save_checkpoint, hfe]
  have hrunt : save_checkpoint d b step pfx keep true
      = saveFinish (removeFile (writeFile d (pfx ++ "tmp") b) (pfx ++ toString step))
          (pfx ++ "tmp") (pfx ++ toString step) pfx keep := by
    simp [save_checkpoint, hfe]
  have hlooktmp : lookupFile (removeFile (writeFile d (pfx ++ "tmp") b)
      (pfx ++ toString step)) (pfx ++ "tmp") = some b := by
    rw [lookupFile_removeFile_ne _ (fun hx => hne hx.symm), lookupFile_writeFile_self]
  have hd3 : renameFile (removeFile (writeFile d (pfx ++ "tmp") b) (pfx ++ toString step))
        (pfx ++ "tmp") (pfx ++ toString step)
      = writeFile (removeFile (removeFile (writeFile d (pfx ++ "tmp") b)
          (pfx ++ toString step)) (pfx ++ "tmp")) (pfx ++ toString step) b :=
    renameFile_of_lookup hlooktmp _
  have hlook3 : lookupFile (renameFile (removeFile (writeFile d (pfx ++ "tmp") b)
        (pfx ++ toString step)) (pfx ++ "tmp") (pfx ++ toString step))
      (pfx ++ toString step) = some b := by
    rw [hd3, lookupFile_writeFile_self]
  have hfinish : (save_checkpoint d b step pfx keep true).1
      = removeFiles
          (renameFile (removeFile (writeFile d (pfx ++ "tmp") b) (pfx ++ toString step))
            (pfx ++ "tmp") (pfx ++ toString step))
          (oldCkpts (renameFile (removeFile (writeFile d (pfx ++ "tmp") b)
              (pfx ++ toString step)) (pfx ++ "tmp") (pfx ++ toString step)) pfx keep) := by
    rw [hrunt]
    rfl
  have hlookup4 : lookupFile (save_checkpoint d b step pfx keep true).1
        (pfx ++ toString step)
      = if (pfx ++ toString step) ∈ oldCkpts (renameFile (removeFile
            (writeFile d (pfx ++ "tmp") b) (pfx ++ toString step)) (pfx ++ "tmp")
            (pfx ++ toString step)) pfx keep
        then none else some b := by
    rw [hfinish, lookupFile_removeFiles]
    split <;> [rfl; exact hlook3]
  refine ⟨⟨hrunf, ?_⟩, ?_, ?_, ?_, ?_⟩
  · rw [hrunf]
    exact (lookupFile_writeFile_ne d b (fun hx => hne hx)).trans hex
  · rw [hrunt]
    rfl
  · rw [hlookup4]
    split
    · exact Or.inr rfl
    · exact Or.inl rfl
  · intro hob
    rw [hlookup4]
    split
    · exact fun hx => Option.noConfusion hx
    · intro hx
      exact hob (Option.some.inj hx).symm
  · intro htmpd hnd hcount
    -- the cleanup removes nothing: the matching-name count is unchanged by
    -- the temp write / remove / rename round trip
    have hld1 : listdir (writeFile d (pfx ++ "tmp") b) = listdir d ++ [pfx ++ "tmp"] :=
      listdir_writeFile_of_not_mem b htmpd
    have hld2 : listdir (removeFile (writeFile d (pfx ++ "tmp") b) (pfx ++ toString step))
        = (listdir d).filter (fun x => x != (pfx ++ toString step)) ++ [pfx ++ "tmp"] := by
      rw [listdir_removeFile, hld1, List.filter_append]
      congr 1
      simp only [List.filter_cons, List.filter_nil]
      rw [if_pos (bne_iff_ne.mpr (fun hx => hne hx.symm))]
    have hldX : listdir (removeFile (removeFile (writeFile d (pfx ++ "tmp") b)
          (pfx ++ toString step)) (pfx ++ "tmp"))
        = (listdir d).filter (fun x => x != (pfx ++ toString step)) := by
      rw [listdir_removeFile, hld2, List.filter_append]
      have h1 : ((listdir d).filter (fun x => x != (pfx ++ toString step))).filter
          (fun x => x != (pfx ++ "tmp"))
          = (listdir d).filter (fun x => x != (pfx ++ toString step)) := by
        apply List.filter_eq_self.mpr
        intro a ha
        exact bne_iff_ne.mpr (fun hx => htmpd (hx ▸ List.mem_of_mem_filter ha))
      have h2 : ([pfx ++ "tmp"] : List String).filter (fun x => x != (pfx ++ "tmp")) = [] := by
        simp
      rw [h1, h2, List.append_nil]
    have hckptX : (pfx ++ toString step) ∉ listdir (removeFile (removeFile
        (writeFile d (pfx ++ "tmp") b) (pfx ++ toString step)) (pfx ++ "tmp")) := by
      rw [hldX]
      intro hx
      have := List.of_mem_filter hx
      simp at this
    have hld3 : listdir (renameFile (removeFile (writeFile d (pfx ++ "tmp") b)
          (pfx ++ toString step)) (pfx ++ "tmp") (pfx ++ toString step))
        = (listdir d).filter (fun x => x != (pfx ++ toString step))
            ++ [pfx ++ toString step] := by
      rw [hd3, listdir_writeFile_of_not_mem b hckptX, hldX]
    have hmemd : (pfx ++ toString step) ∈ listdir d := fileExists_iff_mem.mp hfd
    have hperm3 : (listdir (renameFile (removeFile (writeFile d (pfx ++ "tmp") b)
          (pfx ++ toString step)) (pfx ++ "tmp") (pfx ++ toString step))).Perm
        (listdir d) := by
      rw [hld3]
      have h1 : (listdir d).Perm ((pfx ++ toString step) :: (listdir d).erase
          (pfx ++ toString step)) := List.perm_cons_erase hmemd
      have h2 : (listdir d).erase (pfx ++ toString step)
          = (listdir d).filter (fun x => x != (pfx ++ toString step)) := by
        rw [hnd.erase_eq_filter]
      refine (List.perm_append_singleton _ _).trans ?_
      rw [← h2]
      exact h1.symm
    have hold0 : oldCkpts (renameFile (removeFile (writeFile d (pfx ++ "tmp") b)
        (pfx ++ toString step)) (pfx ++ "tmp") (pfx ++ toString step)) pfx keep = [] := by
      rw [oldCkpts]
      have hlen : (retentionCandidates (renameFile (removeFile (writeFile d (pfx ++ "tmp") b)
          (pfx ++ toString step)) (pfx ++ "tmp") (pfx ++ toString step)) pfx).length
          = ((listdir d).filter (fun n => strHasPfx n pfx)).length := by
        rw [retentionCandidates]
        rw [(sortLex_perm _).length_eq]
        exact (hperm3.filter _).length_eq
      rw [if_neg (by rw [hlen]; omega)]
    rw [hlookup4, hold0]
    rfl

/-- C7 amended, exercised at concrete inputs. -/
theorem C7_overwrite_amended_witness :
    (lookupFile [("checkpoint_1", 5)] ("checkpoint_" ++ toString (1 : Int)) = some 5 ∧
      toString (1 : Int) ≠ "tmp") ∧
    (save_checkpoint [("checkpoint_1", 5)] 9 1 "checkpoint_" 1 false
        = (writeFile [("checkpoint_1", 5)] ("checkpoint_" ++ "tmp") 9,
            .error .alreadyExists) ∧
      lookupFile (save_checkpoint [("checkpoint_1", 5)] 9 1 "checkpoint_" 1 false).1
        ("checkpoint_" ++ toString (1 : Int)) = some 5) ∧
    ((save_checkpoint [("checkpoint_1", 5)] 9 1 "checkpoint_" 1 true).2
        = .ok ("checkpoint_" ++ toString (1 : Int)) ∧
      ((5 : Blob) ≠ 9 → lookupFile (save_checkpoint [("checkpoint_1", 5)] 9 1
          "checkpoint_" 1 true).1 ("checkpoint_" ++ toString (1 : Int)) ≠ some 5) ∧
      (("checkpoint_" ++ "tmp") ∉ listdir [("checkpoint_1", 5)] →
        (listdir [("checkpoint_1", 5)]).Nodup →
        ((listdir [("checkpoint_1", 5)]).filter
          (fun n => strHasPfx n "checkpoint_")).length ≤ 1 →
        lookupFile (save_checkpoint [("checkpoint_1", 5)] 9 1 "checkpoint_" 1 true).1
          ("checkpoint_" ++ toString (1 : Int)) = some 9)) :=
  ⟨⟨by decide, by decide⟩,
    (C7_overwrite_amended [("checkpoint_1", 5)] 9 5 1 "checkpoint_" 1
      (by decide) (by decide)).1,
    (C7_overwrite_amended [("checkpoint_1", 5)] 9 5 1 "checkpoint_" 1
      (by decide) (by decide)).2.1,
    (C7_overwrite_amended [("checkpoint_1", 5)] 9 5 1 "checkpoint_" 1
      (by decide) (by decide)).2.2.2.1,
    (C7_overwrite_amended [("checkpoint_1", 5)] 9 5 1 "checkpoint_" 1
      (by decide) (by decide)).2.2.2.2⟩

/-- An operation list that never writes, removes, or renames `name`
leaves that file's content unchanged. -/
theorem lookupFile_applyOps_untouched (name : String) :
    ∀ (ops : List FsOp) (d : Dir),
      (∀ op ∈ ops, (∀ b, op ≠ .write name b) ∧ op ≠ .remove name ∧
        (∀ s t, op ≠ .rename s t)) →
      lookupFile (applyOps d ops) name = lookupFile d name := by
  intro ops
  induction ops with
  | nil => intro d _; rfl
  | cons op rest ih =>
    intro d h
    have hop := h op (List.mem_cons_self _ _)
    show lookupFile (applyOps (applyOp d op) rest) name = _
    rw [ih (applyOp d op) (fun o ho => h o (List.mem_cons_of_mem _ ho))]
    cases op with
    | write m b =>
      have hm : name ≠ m := fun hx => hop.1 b (by rw [hx])
      exact lookupFile_writeFile_ne d b hm
    | remove m =>
      have hm : name ≠ m := fun hx => hop.2.1 (by rw [hx])
      exact lookupFile_removeFile_ne d hm
    | rename s t => exact absurd rfl (hop.2.2 s t)

/-- The mutation list of any save run: either the failing run (whose only
mutation is the temp write), or a run whose mutations before the single
rename are the temp write and — only with overwrite — the removal of the
existing target. -/
theorem saveOps_shape (d : Dir) (target : Blob) (step : Int) (pfx : String)
    (keep : Nat) (ow : Bool) :
    saveOps d target step pfx keep ow = [.write (pfx ++ "tmp") target] ∨
    ∃ pre post, saveOps d target step pfx keep ow
        = pre ++ .rename (pfx ++ "tmp") (pfx ++ toString step) :: post ∧
      (pre = [.write (pfx ++ "tmp") target] ∨
        (pre = [.write (pfx ++ "tmp") target, .remove (pfx ++ toString step)] ∧
          ow = true)) := by
  rw [saveOps]
  by_cases hfe : fileExists (writeFile d (pfx ++ "tmp") target) (pfx ++ toString step) = true
  · rw [if_pos hfe]
    cases ow with
    | true =>
      rw [if_pos rfl]
      right
      exact ⟨[.write (pfx ++ "tmp") target, .remove (pfx ++ toString step)], _,
        rfl, Or.inr ⟨rfl, rfl⟩⟩
    | false =>
      rw [if_neg (by simp)]
      exact Or.inl rfl
  · rw [if_neg hfe]
    right
    exact ⟨[.write (pfx ++ "tmp") target], _, rfl, Or.inl rfl⟩

/-- C2 counterexample: with overwrite set, `save_checkpoint` removes the
existing target *before* the rename.  After the first two mutations of the
run (a prefix containing no rename), the previously existing checkpoint
`checkpoint_1` — which is not the temp file — is gone, refuting "every
mutation other than the final rename is confined to `<prefix>tmp`". -/
theorem C2_counterexample :
    ((saveOps [("checkpoint_1", 5)] 9 1 "checkpoint_" 1 true).take 2).all
        (fun op => !isRenameOp op) = true ∧
    ("checkpoint_1" : String) ≠ "checkpoint_" ++ "tmp" ∧
    lookupFile [("checkpoint_1", 5)] "checkpoint_1" = some 5 ∧
    lookupFile (applyOps [("checkpoint_1", 5)]
      ((saveOps [("checkpoint_1", 5)] 9 1 "checkpoint_" 1 true).take 2)) "checkpoint_1"
      = none :=
  ⟨by decide, by decide, by decide, by decide⟩

/-- C2 (amended): interrupting a save before the final rename (any prefix of
its mutation list containing no rename) leaves every file other than the
temp file `<prefix>tmp` — and, when overwrite is set, other than the target
path itself — with exactly its previous content.  With overwrite unset this
is every previously existing checkpoint, as the original claim stated. -/
theorem C2_frame_amended (d : Dir) (target : Blob) (step : Int) (pfx : String)
    (keep : Nat) (ow : Bool) (n : Nat) (name : String)
    (hpre : ((saveOps d target step pfx keep ow).take n).all
      (fun op => !isRenameOp op) = true)
    (hname : name ≠ pfx ++ "tmp")
    (how : ow = true → name ≠ pfx ++ toString step) :
    lookupFile (applyOps d ((saveOps d target step pfx keep ow).take n)) name
      = lookupFile d name := by
  apply lookupFile_applyOps_untouched
  intro op hop
  have hchar : op = .write (pfx ++ "tmp") target ∨
      (op = .remove (pfx ++ toString step) ∧ ow = true) := by
    rcases saveOps_shape d target step pfx keep ow with hsh | ⟨pre, post, hsh, hpre2⟩
    · rw [hsh] at hop
      have hm := List.mem_of_mem_take hop
      rw [List.mem_singleton] at hm
      exact Or.inl hm
    · by_cases hn : n ≤ pre.length
      · rw [hsh, List.take_append_of_le_length hn] at hop
        have hm := List.mem_of_mem_take hop
        rcases hpre2 with hp | ⟨hp, hw⟩
        · rw [hp, List.mem_singleton] at hm
          exact Or.inl hm
        · rw [hp] at hm
          rcases List.mem_cons.mp hm with h | h
          · exact Or.inl h
          · rw [List.mem_singleton] at h
            exact Or.inr ⟨h, hw⟩
      · exfalso
        -- the prefix would contain the rename
        have hren : FsOp.rename (pfx ++ "tmp") (pfx ++ toString step)
            ∈ (saveOps d target step pfx keep ow).take n := by
          rw [hsh]
          have hn2 : n = pre.length + (n - pre.length) := by omega
          rw [hn2, List.take_append]
          have hpos : n - pre.length = (n - pre.length - 1) + 1 := by omega
          rw [hpos, List.take_succ_cons]
          exact List.mem_append_right _ (List.mem_cons_self _ _)
        have := List.all_eq_true.mp hpre _ hren
        simp [isRenameOp] at this
    -- done
  rcases hchar with h | ⟨h, hw⟩
  · subst h
    refine ⟨fun b hx => ?_, fun hx => FsOp.noConfusion hx, fun s t hx => FsOp.noConfusion hx⟩
    injection hx with h1 _
    exact hname h1.symm
  · subst h
    refine ⟨fun b hx => FsOp.noConfusion hx, fun hx => ?_, fun s t hx => FsOp.noConfusion hx⟩
    injection hx with h1
    exact how hw h1.symm

/-- C2 amended, exercised at concrete inputs (overwrite off, interruption
right after the temp write). -/
theorem C2_frame_amended_witness :
    ((saveOps [("checkpoint_1", 5)] 9 2 "checkpoint_" 1 false).take 1).all
        (fun op => !isRenameOp op) = true ∧
    ("checkpoint_1" : String) ≠ "checkpoint_" ++ "tmp" ∧
    (false = true → ("checkpoint_1" : String) ≠ "checkpoint_" ++ toString (2 : Int)) ∧
    lookupFile (applyOps [("checkpoint_1", 5)]
        ((saveOps [("checkpoint_1", 5)] 9 2 "checkpoint_" 1 false).take 1)) "checkpoint_1"
      = lookupFile [("checkpoint_1", 5)] "checkpoint_1" :=
  ⟨by decide, by decide, by decide,
    C2_frame_amended [("checkpoint_1", 5)] 9 2 "checkpoint_" 1 false 1 "checkpoint_1"
      (by decide) (by decide) (by decide)⟩

theorem applyOps_map_remove : ∀ (names : List String) (d : Dir),
    applyOps d (names.map FsOp.remove) = removeFiles d names := by
  intro names
  induction names with
  | nil => intro d; rfl
  | cons a rest ih => intro d; exact ih (removeFile d a)

/-- Executing the mutation list of a save run reproduces exactly the final
directory of `save_checkpoint`: the trace view and the state view agree. -/
theorem applyOps_saveOps (d : Dir) (target : Blob) (step : Int) (pfx : String)
    (keep : Nat) (ow : Bool) :
    applyOps d (saveOps d target step pfx keep ow)
      = (save_checkpoint d target step pfx keep ow).1 := by
  rw [saveOps, save_checkpoint]
  by_cases hfe : fileExists (writeFile d (pfx ++ "tmp") target)
      (pfx ++ toString step) = true
  · rw [if_pos hfe, if_pos hfe]
    cases ow with
    | true =>
      rw [if_pos rfl, if_pos rfl]
      exact applyOps_map_remove _ _
    | false =>
      rw [if_neg (by simp), if_neg (by simp)]
      rfl
  · rw [if_neg hfe, if_neg hfe]
    exact applyOps_map_remove _ _

/-- C8: the watcher returns `none` only when a deadline is configured —
with `timeout = none` it polls indefinitely and can only return a path that
is non-none and differs from the cursor; a reached timeout surfaces as a
normal `none` result, which ends the iterator's sequence normally rather
than raising. -/
theorem C8_watcher_timeout :
    (∀ (ckpt_dir pfx : String) (last : Option String) (sl t0 : ℚ) (polls : List Poll),
      wait_for_new_checkpoint ckpt_dir last sl none pfx t0 polls ≠ some none) ∧
    (∀ (ckpt_dir pfx : String) (last : Option String) (sl : ℚ) (st : Option ℚ)
       (polls : List Poll) (p : String),
      waitLoop ckpt_dir pfx last sl st polls = some (some p) → some p ≠ last) ∧
    (∀ (ckpt_dir pfx : String) (timeout : Option ℚ) (sl t0 : ℚ)
       (run : List Poll) (rest : List (ℚ × List Poll)) (cur : Option String),
      wait_for_new_checkpoint ckpt_dir cur sl timeout pfx t0 run = some none →
      checkpoints_iterator ckpt_dir pfx timeout sl ((t0, run) :: rest) cur = []) := by
  refine ⟨?_, ?_, ?_⟩
  · intro ckpt_dir pfx last sl t0 polls
    exact waitLoop_no_timeout ckpt_dir pfx last sl polls
  · intro ckpt_dir pfx last sl st polls p h
    exact (waitLoop_found ckpt_dir pfx last sl st polls p h).2
  · intro ckpt_dir pfx timeout sl t0 run rest cur h
    simp [checkpoints_iterator, h]

/-- C8, exercised at concrete inputs. -/
theorem C8_watcher_timeout_witness :
    wait_for_new_checkpoint "d" none 1 none "checkpoint_" 0 [⟨[], 0⟩] ≠ some none ∧
    (waitLoop "d" "checkpoint_" none 1 none [⟨[("checkpoint_5", 0)], 0⟩]
        = some (some "d/checkpoint_5") ∧
      some "d/checkpoint_5" ≠ (none : Option String)) ∧
    (wait_for_new_checkpoint "d" none 1 (some 0) "checkpoint_" 0 [⟨[], 0⟩] = some none ∧
      checkpoints_iterator "d" "checkpoint_" (some 0) 1 [(0, [⟨[], 0⟩])] none = []) :=
  ⟨C8_watcher_timeout.1 "d" "checkpoint_" none 1 0 [⟨[], 0⟩],
    ⟨by decide,
      C8_watcher_timeout.2.1 "d" "checkpoint_" none 1 none [⟨[("checkpoint_5", 0)], 0⟩]
        "d/checkpoint_5" (by decide)⟩,
    ⟨by norm_num [wait_for_new_checkpoint, waitLoop, latest_checkpoint_path, listdir,
        natural_sort, List.insertionSort, _checkpoint_path, joinPath],
      C8_watcher_timeout.2.2 "d" "checkpoint_" (some 0) 1 0 [⟨[], 0⟩] [] none
        (by norm_num [wait_for_new_checkpoint, waitLoop, latest_checkpoint_path, listdir,
          natural_sort, List.insertionSort, _checkpoint_path, joinPath])⟩⟩

/-- C1 counterexample: two successful saves with distinct steps `2` then
`10` and `keep = 1` leave exactly one file — but it is `checkpoint_2`, not
the most-recently-saved `checkpoint_10`: the cleanup sorts names
lexicographically, where `checkpoint_10 < checkpoint_2`, so it deletes the
file it just saved.  This refutes "they are the k most-recently-saved
ones". -/
theorem C1_counterexample :
    (saveAll [2, 10] "checkpoint_" 1).2 = true ∧
    listdir (saveAll [2, 10] "checkpoint_" 1).1 = ["checkpoint_2"] ∧
    ¬ listdir (saveAll [2, 10] "checkpoint_" 1).1 = ["checkpoint_10"] :=
  ⟨by decide, by decide, by decide⟩

/-- C1 (amended): after `N` sequential saves into an empty directory with
`1 ≤ keep = k < N` and distinct step names, every save succeeds and exactly
`k` checkpoint files remain — namely the `k` *lexicographically greatest*
filenames among all names saved (which coincide with the `k`
most-recently-saved only when lexicographic filename order matches save
order; `keep = 0` would remove nothing since `l[:-0]` is empty). -/
theorem C1_retention_amended (steps : List Int) (pfx : String) (keep : Nat)
    (hk : 1 ≤ keep) (hN : keep < steps.length)
    (hnd : (steps.map (fun s => pfx ++ toString s)).Nodup)
    (htmp : (pfx ++ "tmp") ∉ steps.map (fun s => pfx ++ toString s)) :
    (saveAll steps pfx keep).2 = true ∧
    sortLex (listdir (saveAll steps pfx keep).1)
      = lastK keep (sortLex (steps.map (fun s => pfx ++ toString s))) ∧
    (listdir (saveAll steps pfx keep).1).length = keep := by
  have h := saveAllFrom_spec pfx keep hk steps [] []
    (List.nodup_nil) (by intro n hn; exact absurd hn (List.not_mem_nil n))
    (List.not_mem_nil _) (by simp [listdir, sortLex, lastK, List.insertionSort])
    (by intro s _ hx; exact List.not_mem_nil _ hx) hnd htmp
  have h2 : sortLex (listdir (saveAll steps pfx keep).1)
      = lastK keep (sortLex (steps.map (fun s => pfx ++ toString s))) := by
    have := h.2
    rw [List.nil_append] at this
    exact this
  refine ⟨h.1, h2, ?_⟩
  have hlen1 : (listdir (saveAll steps pfx keep).1).length
      = (sortLex (listdir (saveAll steps pfx keep).1)).length :=
    ((sortLex_perm _).length_eq).symm
  rw [hlen1, h2, length_lastK]
  rw [(sortLex_perm _).length_eq, List.length_map]
  omega

/-- C1 amended, exercised at concrete inputs (steps 2, 5, 7 with keep 2). -/
theorem C1_retention_amended_witness :
    (1 ≤ 2 ∧ 2 < ([2, 5, 7] : List Int).length ∧
      (([2, 5, 7] : List Int).map (fun s => "checkpoint_" ++ toString s)).Nodup ∧
      ("checkpoint_" ++ "tmp")
        ∉ ([2, 5, 7] : List Int).map (fun s => "checkpoint_" ++ toString s)) ∧
    ((saveAll [2, 5, 7] "checkpoint_" 2).2 = true ∧
      sortLex (listdir (saveAll [2, 5, 7] "checkpoint_" 2).1)
        = lastK 2 (sortLex (([2, 5, 7] : List Int).map
            (fun s => "checkpoint_" ++ toString s))) ∧
      (listdir (saveAll [2, 5, 7] "checkpoint_" 2).1).length = 2) :=
  ⟨⟨by decide, by decide, by decide, by decide⟩,
    C1_retention_amended [2, 5, 7] "checkpoint_" 2 (by decide) (by decide)
      (by decide) (by decide)⟩

end Checkpoints
